import Mathlib

/-! kvdb: an in-memory key-value store with nested transactions

A shallow embedding of `pkg/storage/storage.go`, `pkg/database/transaction.go`
and `pkg/database/database.go`.

Modelling conventions.

* A Go receiver that is mutated in place becomes explicit state passing: a
  method returns the state after the call (paired with its Go result if any).
* A Go `map[string]V` that is only indexed, assigned and deleted from
  (`Storage.data`, `Storage.valueCounts`, `TransactionLayer.valueCounts`) is a
  function `String → Option V`; `none` is "no entry".  Indexing an absent
  entry yields Go's zero value (`getD 0` for `int`).
* A Go map that is ranged over (`TransactionLayer.changes` and the local
  `changeMap` of `GetAllChanges`) is an association list with at most one
  entry per key.  Go leaves the visiting order of `range` over a map
  unspecified, so `GetAllChanges` takes the visiting order as an argument
  (`IterOrder`), and every statement about `Commit` quantifies over it.
* Go `int` is `Int`: a count moves by one per call, so wrap-around would need
  2^63 calls and is left out of the model.
-/

namespace KVDB

/-! ## Go maps -/

/-- Indexed-only Go map: `m k = none` means that `k` has no entry. -/
abbrev GoMap (V : Type) := String → Option V

/-- Go `m[k] = v` on an indexed-only map. -/
def GoMap.put {V : Type} (m : GoMap V) (k : String) (v : V) : GoMap V :=
  fun k2 => if k2 = k then some v else m k2

/-- Go `delete(m, k)` on an indexed-only map. -/
def GoMap.del {V : Type} (m : GoMap V) (k : String) : GoMap V :=
  fun k2 => if k2 = k then none else m k2

/-- Go `m[k]` on a `map[string]int`: the zero value when the entry is absent. -/
def GoMap.at (m : GoMap Int) (k : String) : Int := (m k).getD 0

/-- Ranged-over Go map: association list, at most one entry per key. -/
abbrev AssocMap (V : Type) := List (String × V)

/-- Go `v, exists := m[k]` on a ranged-over map. -/
def AssocMap.get {V : Type} (m : AssocMap V) (k : String) : Option V :=
  match m with
  | [] => none
  | (k2, v) :: rest => if k2 = k then some v else AssocMap.get rest k

/-- Go `m[k] = v` on a ranged-over map: the entry for `k` is replaced. -/
def AssocMap.put {V : Type} (m : AssocMap V) (k : String) (v : V) : AssocMap V :=
  (k, v) :: m.filter (fun e => decide (e.1 ≠ k))

/-! ## pkg/storage/storage.go -/

/-- Storage handles the core key-value storage and value counting. -/
structure Storage where
  data : GoMap String
  valueCounts : GoMap Int

namespace Storage

/-- New creates a new storage instance. -/
def New : Storage := { data := fun _ => none, valueCounts := fun _ => none }

/-- Set stores a key-value pair. -/
def Set (s : Storage) (key value : String) : Storage :=
  { s with data := s.data.put key value }

/-- Get retrieves a value by key, returns "NULL" if not found. -/
def Get (s : Storage) (key : String) : String :=
  match s.data key with
  | some value => value
  | none => "NULL"

/-- Unset removes a key-value pair. -/
def Unset (s : Storage) (key : String) : Storage :=
  { s with data := s.data.del key }

/-- GetValueCount returns the count of keys with the given value. -/
def GetValueCount (s : Storage) (value : String) : Int :=
  s.valueCounts.at value

/-- IncrementValueCount increases the count for a value. -/
def IncrementValueCount (s : Storage) (value : String) : Storage :=
  { s with valueCounts := s.valueCounts.put value (s.valueCounts.at value + 1) }

/-- DecrementValueCount decreases the count for a value and deletes the entry
when it is no longer positive. -/
def DecrementValueCount (s : Storage) (value : String) : Storage :=
  let vc := s.valueCounts.put value (s.valueCounts.at value - 1)
  if vc.at value ≤ 0 then { s with valueCounts := vc.del value }
  else { s with valueCounts := vc }

/-- UpdateValueCount handles value count changes when a key is updated. -/
def UpdateValueCount (s : Storage) (oldValue newValue : String) : Storage :=
  let s1 := if oldValue ≠ "NULL" then s.DecrementValueCount oldValue else s
  s1.IncrementValueCount newValue

end Storage

/-! ## pkg/database/transaction.go -/

/-- The only error of the package. -/
inductive Error where
  | ErrNoTransaction
  deriving DecidableEq, Repr

/-- The text of `errors.New("NO TRANSACTION")`. -/
def Error.message : Error → String
  | .ErrNoTransaction => "NO TRANSACTION"

/-- Operation represents the type of transaction operation. -/
inductive Operation where
  | OpSet
  | OpUnset
  deriving DecidableEq, Repr

/-- TransactionChange represents a change made within a transaction. -/
structure TransactionChange where
  Key : String
  OldValue : String
  NewValue : String
  Operation : Operation
  deriving DecidableEq, Repr

/-- TransactionLayer represents a single transaction layer. -/
structure TransactionLayer where
  changes : AssocMap TransactionChange
  valueCounts : GoMap Int

/-- The function newTransactionLayer creates a new transaction layer. -/
def newTransactionLayer : TransactionLayer :=
  { changes := [], valueCounts := fun _ => none }

/-- TransactionManager manages nested transactions; `layers` is in source
order: index 0 is the outermost layer, the last element the innermost. -/
structure TransactionManager where
  layers : List TransactionLayer

/-- A visiting order of Go's `range` over a map: any rearrangement of the
entries. -/
structure IterOrder where
  visit : List TransactionChange → List TransactionChange
  perm : ∀ l, (visit l).Perm l

/-- The visiting order that keeps the entries as listed. -/
def IterOrder.asListed : IterOrder := { visit := fun l => l, perm := fun l => List.Perm.refl l }

/-- The visiting order that reverses the entries. -/
def IterOrder.reversed : IterOrder :=
  { visit := fun l => l.reverse, perm := fun l => List.reverse_perm l }

namespace TransactionManager

/-- NewTransactionManager creates a new transaction manager. -/
def NewTransactionManager : TransactionManager := { layers := [] }

/-- InTransaction returns true if there are active transactions. -/
def InTransaction (tm : TransactionManager) : Bool := decide (tm.layers.length > 0)

/-- Begin starts a new transaction layer. -/
def Begin (tm : TransactionManager) : TransactionManager :=
  { layers := tm.layers ++ [newTransactionLayer] }

/-- Rollback removes the most recent transaction layer. -/
def Rollback (tm : TransactionManager) : TransactionManager × Option Error :=
  if ¬ tm.InTransaction then (tm, some Error.ErrNoTransaction)
  else ({ layers := tm.layers.take (tm.layers.length - 1) }, none)

/-- The function getCurrentLayer returns the current (most recent) layer. -/
def getCurrentLayer (tm : TransactionManager) : Option TransactionLayer :=
  if ¬ tm.InTransaction then none else tm.layers.get? (tm.layers.length - 1)

/-- Writing through the pointer returned by `getCurrentLayer`: the last
element of `layers` is replaced. -/
def setCurrentLayer (tm : TransactionManager) (layer : TransactionLayer) : TransactionManager :=
  { layers := tm.layers.take (tm.layers.length - 1) ++ [layer] }

/-- Set records a SET operation in the current transaction. -/
def Set (tm : TransactionManager) (key value oldValue : String) : TransactionManager :=
  if ¬ tm.InTransaction then tm
  else
    match tm.getCurrentLayer with
    | none => tm
    | some layer =>
      let vc1 :=
        if oldValue ≠ "NULL" then layer.valueCounts.put oldValue (layer.valueCounts.at oldValue - 1)
        else layer.valueCounts
      let vc2 := vc1.put value (vc1.at value + 1)
      tm.setCurrentLayer
        { changes := layer.changes.put key
            { Key := key, OldValue := oldValue, NewValue := value, Operation := Operation.OpSet }
          valueCounts := vc2 }

/-- Unset records an UNSET operation in the current transaction. -/
def Unset (tm : TransactionManager) (key currentValue : String) : TransactionManager :=
  if ¬ tm.InTransaction then tm
  else
    match tm.getCurrentLayer with
    | none => tm
    | some layer =>
      tm.setCurrentLayer
        { changes := layer.changes.put key
            { Key := key, OldValue := currentValue, NewValue := "NULL",
              Operation := Operation.OpUnset }
          valueCounts := layer.valueCounts.put currentValue (layer.valueCounts.at currentValue - 1) }

/-- The loop of `Get`: `ls` holds `layers[0..i]` innermost first. -/
def getLoop (key : String) : List TransactionLayer → String × Bool
  | [] => ("", false)
  | layer :: rest =>
    match layer.changes.get key with
    | some change =>
      if change.Operation = Operation.OpUnset then ("NULL", true) else (change.NewValue, true)
    | none => getLoop key rest

/-- Get retrieves a value from the transaction layers, searching from the most
recent transaction to the oldest. -/
def Get (tm : TransactionManager) (key : String) : String × Bool :=
  getLoop key tm.layers.reverse

/-- GetValueCount returns the net change in value count across all layers. -/
def GetValueCount (tm : TransactionManager) (value : String) : Int :=
  tm.layers.foldl (fun total layer => total + layer.valueCounts.at value) 0

/-- The `changeMap` of `GetAllChanges`: later layers override earlier ones. -/
def changeMap (tm : TransactionManager) : AssocMap TransactionChange :=
  tm.layers.foldl
    (fun cm layer => layer.changes.foldl (fun cm2 e => cm2.put e.1 e.2) cm) []

/-- GetAllChanges returns all changes from all transaction layers, in the
order `o` in which `range` visits `changeMap`. -/
def GetAllChanges (tm : TransactionManager) (o : IterOrder) : List TransactionChange :=
  o.visit (tm.changeMap.map (fun e => e.2))

/-- Clear removes all transaction layers. -/
def Clear (_tm : TransactionManager) : TransactionManager := { layers := [] }

end TransactionManager

/-! ## pkg/database/database.go -/

/-- Database represents an in-memory key-value store with transaction support. -/
structure Database where
  storage : Storage
  transactions : TransactionManager

namespace Database

/-- New creates a new database instance. -/
def New : Database :=
  { storage := Storage.New, transactions := TransactionManager.NewTransactionManager }

/-- Set stores a key-value pair. -/
def Set (db : Database) (key value : String) : Database :=
  if db.transactions.InTransaction then
    { db with transactions := db.transactions.Set key value (db.storage.Get key) }
  else
    let oldValue := db.storage.Get key
    let st := db.storage.Set key value
    { db with storage := st.UpdateValueCount oldValue value }

/-- Get retrieves a value by key, returns "NULL" if not found. -/
def Get (db : Database) (key : String) : String :=
  if db.transactions.InTransaction then
    if (db.transactions.Get key).2 then (db.transactions.Get key).1
    else db.storage.Get key
  else db.storage.Get key

/-- Unset removes a key-value pair. -/
def Unset (db : Database) (key : String) : Database :=
  let currentValue := db.Get key
  if currentValue = "NULL" then db
  else if db.transactions.InTransaction then
    { db with transactions := db.transactions.Unset key currentValue }
  else
    { db with storage := (db.storage.Unset key).DecrementValueCount currentValue }

/-- NumEqualTo returns the count of keys with the given value. -/
def NumEqualTo (db : Database) (value : String) : Int :=
  let baseCount := db.storage.GetValueCount value
  let transactionCount := db.transactions.GetValueCount value
  baseCount + transactionCount

/-- Begin starts a new transaction. -/
def Begin (db : Database) : Database :=
  { db with transactions := db.transactions.Begin }

/-- Rollback undoes the most recent transaction. -/
def Rollback (db : Database) : Database × Option Error :=
  ({ db with transactions := db.transactions.Rollback.1 }, db.transactions.Rollback.2)

/-- The function applyChange applies a single transaction change to the main
storage; of the receiver `db` it reads and writes `db.storage` only, which is
the state passed here. -/
def applyChange (st : Storage) (change : TransactionChange) : Storage :=
  match change.Operation with
  | Operation.OpSet =>
    let oldValue := st.Get change.Key
    let st1 := st.Set change.Key change.NewValue
    st1.UpdateValueCount oldValue change.NewValue
  | Operation.OpUnset =>
    (st.Unset change.Key).DecrementValueCount change.OldValue

/-- Commit applies all pending transactions to the main storage; `o` is the
order in which the net changes are visited. -/
def Commit (db : Database) (o : IterOrder) : Database × Option Error :=
  if ¬ db.transactions.InTransaction then (db, some Error.ErrNoTransaction)
  else
    let changes := db.transactions.GetAllChanges o
    ({ storage := changes.foldl applyChange db.storage
       transactions := db.transactions.Clear }, none)

end Database

/-! ## Call sequences -/

/-- One call on the facade. -/
inductive Call where
  | set (key value : String)
  | unset (key : String)
  | begin
  | rollback
  | commit (o : IterOrder)

/-- The state after one call (the Go result of `Rollback`/`Commit` dropped). -/
def Call.run (db : Database) : Call → Database
  | .set key value => db.Set key value
  | .unset key => db.Unset key
  | .begin => db.Begin
  | .rollback => db.Rollback.1
  | .commit o => (db.Commit o).1

/-- The state after a sequence of calls, first call first. -/
def runCalls (db : Database) (calls : List Call) : Database :=
  calls.foldl Call.run db

/-- States reachable from `New()` by a finite sequence of calls. -/
def Reachable (db : Database) : Prop := ∃ calls : List Call, runCalls Database.New calls = db


/-- Calls that write a key: `Set` and `Unset`. -/
inductive Write where
  | set (key value : String)
  | unset (key : String)

/-- A write seen as a call. -/
def Write.toCall : Write → Call
  | .set key value => Call.set key value
  | .unset key => Call.unset key

/-- The keys passed to `Set` in a sequence of calls. -/
def setKeys : List Call → List String
  | [] => []
  | Call.set key _ :: rest => key :: setKeys rest
  | _ :: rest => setKeys rest

/-- The number of distinct keys among `keys` whose `Get` is `v`. -/
def keysHolding (db : Database) (keys : List String) (v : String) : Nat :=
  (keys.dedup.filter (fun k => decide (db.Get k = v))).length

/-- The nesting depth: the number of active layers. -/
def depth (db : Database) : Nat := db.transactions.layers.length

/-! ## Definitions used in the proofs -/

/-- The innermost layer after `TransactionManager.Set`. -/
def TransactionLayer.recordSet (layer : TransactionLayer) (key value oldValue : String) :
    TransactionLayer :=
  let vc1 :=
    if oldValue ≠ "NULL" then layer.valueCounts.put oldValue (layer.valueCounts.at oldValue - 1)
    else layer.valueCounts
  { changes := layer.changes.put key
      { Key := key, OldValue := oldValue, NewValue := value, Operation := Operation.OpSet }
    valueCounts := vc1.put value (vc1.at value + 1) }

/-- The innermost layer after `TransactionManager.Unset`. -/
def TransactionLayer.recordUnset (layer : TransactionLayer) (key currentValue : String) :
    TransactionLayer :=
  { changes := layer.changes.put key
      { Key := key, OldValue := currentValue, NewValue := "NULL", Operation := Operation.OpUnset }
    valueCounts := layer.valueCounts.put currentValue (layer.valueCounts.at currentValue - 1) }

/-- Base-store count invariant relative to a finite key universe `S`: every
stored key lies in `S`, and the count of every value other than "NULL" is the
number of keys of `S` stored with that value. -/
def Storage.Counted (S : Finset String) (st : Storage) : Prop :=
  (∀ k, st.data k ≠ none → k ∈ S)
  ∧ ∀ v, v ≠ "NULL" →
      st.valueCounts.at v = ((S.filter (fun k => st.data k = some v)).card : Int)

/-- Database-level invariant outside any transaction. -/
def Database.CountedBase (S : Finset String) (db : Database) : Prop :=
  db.transactions.layers = [] ∧ Storage.Counted S db.storage

/-- A `changes` map as the code builds it: one entry per key, and every entry
stores its own key in the field `Key`. -/
def AssocMap.WF (m : AssocMap TransactionChange) : Prop :=
  (m.map Prod.fst).Nodup ∧ ∀ e ∈ m, e.2.Key = e.1

/-- Every layer of the stack is well formed. -/
def TransactionManager.WF (tm : TransactionManager) : Prop :=
  ∀ layer ∈ tm.layers, AssocMap.WF layer.changes

/-- The change that `TransactionManager.Get` finds for a key, innermost layer
first. -/
def findChange (key : String) : List TransactionLayer → Option TransactionChange
  | [] => none
  | layer :: rest =>
    match layer.changes.get key with
    | some change => some change
    | none => findChange key rest

/-- What a change leaves in the base map for its key. -/
def TransactionChange.stored (c : TransactionChange) : Option String :=
  match c.Operation with
  | Operation.OpSet => some c.NewValue
  | Operation.OpUnset => none

/-- Every entry present in the base store's value→count map is positive. -/
def Storage.PositiveCounts (st : Storage) : Prop :=
  ∀ v n, st.valueCounts v = some n → 0 < n

/-- The count invariant over the keys `keys`: for every value other than
"NULL", `NumEqualTo` is the number of distinct keys among `keys` reading as
that value. -/
def CountInvariant (db : Database) (keys : List String) : Prop :=
  ∀ v, v ≠ "NULL" → db.NumEqualTo v = keysHolding db keys v

/-- What one recorded change adds to the count of `v`: +1 for a Set whose
`NewValue` is `v`, and -1 when its `OldValue` is `v` and not "NULL". -/
def TransactionChange.contribution (c : TransactionChange) (v : String) : Int :=
  (if c.Operation = Operation.OpSet ∧ c.NewValue = v then 1 else 0)
  + (if c.OldValue = v ∧ c.OldValue ≠ "NULL" then -1 else 0)

/-- The sum of the contributions of the changes a layer holds in `changes`. -/
def TransactionLayer.changesSum (layer : TransactionLayer) (v : String) : Int :=
  (layer.changes.map (fun e => e.2.contribution v)).sum

/-- The layer invariant: in every layer the local count of every value is the
sum of the contributions of the changes the layer holds. -/
def LayerInvariant (db : Database) : Prop :=
  ∀ layer ∈ db.transactions.layers, ∀ v, layer.valueCounts.at v = layer.changesSum v

/-- The entry a call writes into `changes` of the innermost layer, read back
from the state after the call; `none` when the call writes no entry (no
transaction active, an `Unset` of a key reading "NULL", or another call). -/
def Call.recorded (db : Database) : Call → Option TransactionChange
  | .set key value =>
    if db.transactions.InTransaction then
      (db.Set key value).transactions.getCurrentLayer.bind (fun layer => layer.changes.get key)
    else none
  | .unset key =>
    if db.transactions.InTransaction ∧ db.Get key ≠ "NULL" then
      (db.Unset key).transactions.getCurrentLayer.bind (fun layer => layer.changes.get key)
    else none
  | _ => none

/-- Appending a change to the log of the innermost layer. -/
def logToCurrent (log : List (List TransactionChange)) (c : TransactionChange) :
    List (List TransactionChange) :=
  log.take (log.length - 1) ++ [(log.getLast?.getD []) ++ [c]]

/-- The write log after one call: per layer, in layer order, every entry written
into the layer's `changes` since `Begin` pushed it, oldest first. -/
def Call.runLog (db : Database) (log : List (List TransactionChange)) (c : Call) :
    List (List TransactionChange) :=
  match c with
  | .begin => log ++ [[]]
  | .rollback => log.take (log.length - 1)
  | .commit _ => []
  | c =>
    match c.recorded db with
    | some change => logToCurrent log change
    | none => log

/-- The write log after a sequence of calls from the state `db` with log `log`. -/
def runLog : Database → List (List TransactionChange) → List Call →
    List (List TransactionChange)
  | _, log, [] => log
  | db, log, c :: rest => runLog (c.run db) (c.runLog db log) rest

/-- What relates a layer to its write log: `changes` is the log replayed with
last-write-wins, and every local count is the sum over the whole log. -/
def TransactionLayer.Logged (layer : TransactionLayer) (lg : List TransactionChange) : Prop :=
  layer.changes = lg.foldl (fun m c => AssocMap.put m c.Key c) []
  ∧ ∀ v, layer.valueCounts.at v = (lg.map (fun c => c.contribution v)).sum

/-- The keys that have an entry in at least one layer, each listed once. -/
def TransactionManager.touchedKeys (tm : TransactionManager) : List String :=
  (tm.layers.flatMap (fun layer => layer.changes.map Prod.fst)).dedup

/-- The value a change makes its key read as: "NULL" for an Unset, `NewValue`
for a Set. -/
def TransactionChange.effective (c : TransactionChange) : String :=
  if c.Operation = Operation.OpUnset then "NULL" else c.NewValue

/-! ## pkg/command/command.go

`parseCommand` calls three functions of the Go standard library.
`strings.TrimSpace` and `strings.Fields` are written out below after their
documentation, on Lean strings (sequences of Unicode characters).
`strings.ToUpper`, the Unicode upper-case mapping, is a parameter `toUpper` of
`parseCommand`. -/

/-- Go `unicode.IsSpace`: the characters with Unicode's White Space property. -/
def unicode.IsSpace (c : Char) : Bool :=
  decide ((9 ≤ c.toNat ∧ c.toNat ≤ 13) ∨ c.toNat = 0x20 ∨ c.toNat = 0x85 ∨ c.toNat = 0xA0
    ∨ c.toNat = 0x1680 ∨ (0x2000 ≤ c.toNat ∧ c.toNat ≤ 0x200A) ∨ c.toNat = 0x2028
    ∨ c.toNat = 0x2029 ∨ c.toNat = 0x202F ∨ c.toNat = 0x205F ∨ c.toNat = 0x3000)

/-- Go `strings.TrimSpace`: the string with all leading and trailing white
space removed. -/
def strings.TrimSpace (s : String) : String :=
  String.mk ((s.data.dropWhile unicode.IsSpace).reverse.dropWhile unicode.IsSpace).reverse

/-- The scan of `strings.Fields`: `cur` is the field being read, the second
argument the characters still to read. -/
def strings.fieldsLoop : List Char → List Char → List String
  | cur, [] => if cur = [] then [] else [String.mk cur]
  | cur, c :: cs =>
    if unicode.IsSpace c then
      if cur = [] then strings.fieldsLoop [] cs else String.mk cur :: strings.fieldsLoop [] cs
    else strings.fieldsLoop (cur ++ [c]) cs

/-- Go `strings.Fields`: the string split around each run of white space
characters; no field is empty, and the result is empty when the string holds
only white space. -/
def strings.Fields (s : String) : List String := strings.fieldsLoop [] s.data

/-- CommandType represents different database commands. -/
inductive CommandType where
  | CmdSet
  | CmdGet
  | CmdUnset
  | CmdNumEqualTo
  | CmdBegin
  | CmdRollback
  | CmdCommit
  | CmdEnd
  | CmdInvalid
  deriving DecidableEq, Repr

/-- Command represents a parsed database command.  The Go field `Type` is
`CmdType` here (`Type` is reserved in Lean); a nil `Args` is the empty list. -/
structure Command where
  CmdType : CommandType
  Args : List String
  deriving DecidableEq, Repr

/-- The function parseCommand converts a string input into a Command. -/
def parseCommand (toUpper : String → String) (input : String) : Command :=
  let input := strings.TrimSpace input
  if input = "" then { CmdType := CommandType.CmdInvalid, Args := [] }
  else
    match strings.Fields input with
    | [] => { CmdType := CommandType.CmdInvalid, Args := [] }
    | first :: args =>
      let cmdName := toUpper first
      if cmdName = "SET" then
        if args.length = 2 then { CmdType := CommandType.CmdSet, Args := args }
        else { CmdType := CommandType.CmdInvalid, Args := [] }
      else if cmdName = "GET" then
        if args.length = 1 then { CmdType := CommandType.CmdGet, Args := args }
        else { CmdType := CommandType.CmdInvalid, Args := [] }
      else if cmdName = "UNSET" then
        if args.length = 1 then { CmdType := CommandType.CmdUnset, Args := args }
        else { CmdType := CommandType.CmdInvalid, Args := [] }
      else if cmdName = "NUMEQUALTO" then
        if args.length = 1 then { CmdType := CommandType.CmdNumEqualTo, Args := args }
        else { CmdType := CommandType.CmdInvalid, Args := [] }
      else if cmdName = "BEGIN" then
        if args.length = 0 then { CmdType := CommandType.CmdBegin, Args := [] }
        else { CmdType := CommandType.CmdInvalid, Args := [] }
      else if cmdName = "ROLLBACK" then
        if args.length = 0 then { CmdType := CommandType.CmdRollback, Args := [] }
        else { CmdType := CommandType.CmdInvalid, Args := [] }
      else if cmdName = "COMMIT" then
        if args.length = 0 then { CmdType := CommandType.CmdCommit, Args := [] }
        else { CmdType := CommandType.CmdInvalid, Args := [] }
      else if cmdName = "END" then
        if args.length = 0 then { CmdType := CommandType.CmdEnd, Args := [] }
        else { CmdType := CommandType.CmdInvalid, Args := [] }
      else { CmdType := CommandType.CmdInvalid, Args := [] }

/-- The name of a command type on the input line; `CmdInvalid` has none. -/
def CommandType.name : CommandType → Option String
  | .CmdSet => some "SET"
  | .CmdGet => some "GET"
  | .CmdUnset => some "UNSET"
  | .CmdNumEqualTo => some "NUMEQUALTO"
  | .CmdBegin => some "BEGIN"
  | .CmdRollback => some "ROLLBACK"
  | .CmdCommit => some "COMMIT"
  | .CmdEnd => some "END"
  | .CmdInvalid => none

/-- The number of arguments of a command type; `CmdInvalid` has none. -/
def CommandType.arity : CommandType → Option Nat
  | .CmdSet => some 2
  | .CmdGet => some 1
  | .CmdUnset => some 1
  | .CmdNumEqualTo => some 1
  | .CmdBegin => some 0
  | .CmdRollback => some 0
  | .CmdCommit => some 0
  | .CmdEnd => some 0
  | .CmdInvalid => none

/-- The `switch` of `parseCommand` on the fields of the line. -/
def parseTokens (toUpper : String → String) : List String → Command
  | [] => { CmdType := CommandType.CmdInvalid, Args := [] }
  | first :: args =>
    if toUpper first = "SET" then
      if args.length = 2 then { CmdType := CommandType.CmdSet, Args := args }
      else { CmdType := CommandType.CmdInvalid, Args := [] }
    else if toUpper first = "GET" then
      if args.length = 1 then { CmdType := CommandType.CmdGet, Args := args }
      else { CmdType := CommandType.CmdInvalid, Args := [] }
    else if toUpper first = "UNSET" then
      if args.length = 1 then { CmdType := CommandType.CmdUnset, Args := args }
      else { CmdType := CommandType.CmdInvalid, Args := [] }
    else if toUpper first = "NUMEQUALTO" then
      if args.length = 1 then { CmdType := CommandType.CmdNumEqualTo, Args := args }
      else { CmdType := CommandType.CmdInvalid, Args := [] }
    else if toUpper first = "BEGIN" then
      if args.length = 0 then { CmdType := CommandType.CmdBegin, Args := [] }
      else { CmdType := CommandType.CmdInvalid, Args := [] }
    else if toUpper first = "ROLLBACK" then
      if args.length = 0 then { CmdType := CommandType.CmdRollback, Args := [] }
      else { CmdType := CommandType.CmdInvalid, Args := [] }
    else if toUpper first = "COMMIT" then
      if args.length = 0 then { CmdType := CommandType.CmdCommit, Args := [] }
      else { CmdType := CommandType.CmdInvalid, Args := [] }
    else if toUpper first = "END" then
      if args.length = 0 then { CmdType := CommandType.CmdEnd, Args := [] }
      else { CmdType := CommandType.CmdInvalid, Args := [] }
    else { CmdType := CommandType.CmdInvalid, Args := [] }

/-! ## Lemmas on maps -/

section MapLemmas

variable {V : Type}

@[simp]
theorem GoMap.put_same (m : GoMap V) (k : String) (v : V) : m.put k v k = some v := by
  simp [GoMap.put]

@[simp]
theorem GoMap.put_other (m : GoMap V) {k k2 : String} (v : V) (h : k2 ≠ k) :
    m.put k v k2 = m k2 := by
  simp [GoMap.put, h]

@[simp]
theorem GoMap.del_same (m : GoMap V) (k : String) : m.del k k = none := by
  simp [GoMap.del]

@[simp]
theorem GoMap.del_other (m : GoMap V) {k k2 : String} (h : k2 ≠ k) :
    m.del k k2 = m k2 := by
  simp [GoMap.del, h]

@[simp]
theorem GoMap.at_put_same (m : GoMap Int) (k : String) (n : Int) :
    (m.put k n).at k = n := by
  simp [GoMap.at]

@[simp]
theorem GoMap.at_put_other (m : GoMap Int) {k k2 : String} (n : Int) (h : k2 ≠ k) :
    (m.put k n).at k2 = m.at k2 := by
  simp [GoMap.at, h]

@[simp]
theorem GoMap.at_del_same (m : GoMap Int) (k : String) : (m.del k).at k = 0 := by
  simp [GoMap.at]

@[simp]
theorem GoMap.at_del_other (m : GoMap Int) {k k2 : String} (h : k2 ≠ k) :
    (m.del k).at k2 = m.at k2 := by
  simp [GoMap.at, h]

@[simp]
theorem AssocMap.get_nil (k : String) : AssocMap.get ([] : AssocMap V) k = none := rfl

theorem AssocMap.get_cons (k2 : String) (v : V) (rest : AssocMap V) (k : String) :
    AssocMap.get ((k2, v) :: rest) k = if k2 = k then some v else AssocMap.get rest k := rfl

theorem AssocMap.get_filter_ne (m : AssocMap V) {k k2 : String} (h : k2 ≠ k) :
    AssocMap.get (m.filter (fun e => decide (e.1 ≠ k))) k2 = AssocMap.get m k2 := by
  induction m with
  | nil => rfl
  | cons e rest ih =>
    obtain ⟨a, b⟩ := e
    by_cases ha : a = k
    · subst ha
      have : ¬ a = k2 := fun h2 => h h2.symm
      rw [List.filter_cons_of_neg (by simp), ih, AssocMap.get_cons, if_neg this]
    · rw [List.filter_cons_of_pos (by simpa using ha), AssocMap.get_cons, AssocMap.get_cons, ih]

@[simp]
theorem AssocMap.get_put_same (m : AssocMap V) (k : String) (v : V) :
    AssocMap.get (m.put k v) k = some v := by
  simp [AssocMap.put, AssocMap.get_cons]

theorem AssocMap.get_put_other (m : AssocMap V) {k k2 : String} (v : V) (h : k2 ≠ k) :
    AssocMap.get (m.put k v) k2 = AssocMap.get m k2 := by
  have : ¬ k = k2 := fun h2 => h h2.symm
  rw [AssocMap.put, AssocMap.get_cons, if_neg this, AssocMap.get_filter_ne m h]

end MapLemmas

/-! ## Lemmas on the base store -/

@[simp]
theorem Storage.data_set (s : Storage) (key value : String) :
    (s.Set key value).data = s.data.put key value := rfl

@[simp]
theorem Storage.valueCounts_set (s : Storage) (key value : String) :
    (s.Set key value).valueCounts = s.valueCounts := rfl

@[simp]
theorem Storage.data_unset (s : Storage) (key : String) :
    (s.Unset key).data = s.data.del key := rfl

@[simp]
theorem Storage.valueCounts_unset (s : Storage) (key : String) :
    (s.Unset key).valueCounts = s.valueCounts := rfl

@[simp]
theorem Storage.data_increment (s : Storage) (value : String) :
    (s.IncrementValueCount value).data = s.data := rfl

@[simp]
theorem Storage.data_decrement (s : Storage) (value : String) :
    (s.DecrementValueCount value).data = s.data := by
  unfold Storage.DecrementValueCount
  simp only
  split <;> rfl

@[simp]
theorem Storage.data_update (s : Storage) (oldValue newValue : String) :
    (s.UpdateValueCount oldValue newValue).data = s.data := by
  unfold Storage.UpdateValueCount
  simp only
  split <;> simp

theorem Storage.get_of_data_some (s : Storage) {key value : String} (h : s.data key = some value) :
    s.Get key = value := by
  simp [Storage.Get, h]

theorem Storage.get_of_data_none (s : Storage) {key : String} (h : s.data key = none) :
    s.Get key = "NULL" := by
  simp [Storage.Get, h]

theorem Storage.at_increment (s : Storage) (value w : String) :
    (s.IncrementValueCount value).valueCounts.at w
      = s.valueCounts.at w + (if w = value then 1 else 0) := by
  unfold Storage.IncrementValueCount
  by_cases h : w = value
  · subst h
    simp
  · simp [h]

theorem Storage.at_decrement (s : Storage) (value w : String) :
    (s.DecrementValueCount value).valueCounts.at w
      = if w = value then max (s.valueCounts.at value - 1) 0 else s.valueCounts.at w := by
  unfold Storage.DecrementValueCount
  simp only [GoMap.at_put_same]
  by_cases h : w = value
  · subst h
    by_cases hle : s.valueCounts.at w - 1 ≤ 0
    · simp [hle]
    · simp only [hle, if_false, GoMap.at_put_same, if_true]
      omega
  · by_cases hle : s.valueCounts.at value - 1 ≤ 0
    · simp [hle, h]
    · simp [hle, h]

theorem Storage.at_update (s : Storage) (oldValue newValue w : String) :
    (s.UpdateValueCount oldValue newValue).valueCounts.at w
      = (if oldValue ≠ "NULL" ∧ w = oldValue then max (s.valueCounts.at w - 1) 0
          else s.valueCounts.at w)
        + (if w = newValue then 1 else 0) := by
  unfold Storage.UpdateValueCount
  simp only [Storage.at_increment]
  by_cases ho : oldValue = "NULL"
  · simp [ho]
  · simp only [ne_eq, ho, not_false_eq_true, if_true, Storage.at_decrement, true_and]
    by_cases hw : w = oldValue
    · subst hw
      simp
    · simp [hw]

/-! ## Lemmas on the layer stack -/

theorem TransactionManager.inTransaction_iff (tm : TransactionManager) :
    tm.InTransaction = true ↔ tm.layers ≠ [] := by
  simp [TransactionManager.InTransaction, List.length_pos]

theorem TransactionManager.not_inTransaction_iff (tm : TransactionManager) :
    tm.InTransaction = false ↔ tm.layers = [] := by
  cases h : tm.layers <;> simp [TransactionManager.InTransaction, h]

/-- An active stack splits into the outer layers and the innermost one. -/
theorem TransactionManager.layers_split (tm : TransactionManager) (h : tm.InTransaction = true) :
    ∃ outer cur, tm.layers = outer ++ [cur] := by
  have hne : tm.layers ≠ [] := (tm.inTransaction_iff).1 h
  exact ⟨tm.layers.dropLast, tm.layers.getLast hne, (List.dropLast_append_getLast hne).symm⟩

theorem TransactionManager.getCurrentLayer_snoc (outer : List TransactionLayer)
    (cur : TransactionLayer) :
    TransactionManager.getCurrentLayer { layers := outer ++ [cur] } = some cur := by
  simp [TransactionManager.getCurrentLayer, TransactionManager.InTransaction]

theorem TransactionManager.setCurrentLayer_snoc (outer : List TransactionLayer)
    (cur layer : TransactionLayer) :
    TransactionManager.setCurrentLayer { layers := outer ++ [cur] } layer
      = { layers := outer ++ [layer] } := by
  simp [TransactionManager.setCurrentLayer]

theorem TransactionManager.inTransaction_snoc (outer : List TransactionLayer)
    (cur : TransactionLayer) :
    TransactionManager.InTransaction { layers := outer ++ [cur] } = true := by
  simp [TransactionManager.InTransaction]

theorem TransactionManager.rollback_snoc (outer : List TransactionLayer)
    (cur : TransactionLayer) :
    TransactionManager.Rollback { layers := outer ++ [cur] } = ({ layers := outer }, none) := by
  simp [TransactionManager.Rollback, TransactionManager.InTransaction]

theorem TransactionManager.foldl_count (value : String) (ls : List TransactionLayer) (a : Int) :
    ls.foldl (fun total layer => total + layer.valueCounts.at value) a
      = a + ls.foldl (fun total layer => total + layer.valueCounts.at value) 0 := by
  induction ls generalizing a with
  | nil => simp
  | cons l rest ih =>
    simp only [List.foldl_cons]
    rw [ih (a + l.valueCounts.at value), ih (0 + l.valueCounts.at value)]
    ring

theorem TransactionManager.getValueCount_snoc (outer : List TransactionLayer)
    (cur : TransactionLayer) (value : String) :
    TransactionManager.GetValueCount { layers := outer ++ [cur] } value
      = TransactionManager.GetValueCount { layers := outer } value + cur.valueCounts.at value := by
  simp [TransactionManager.GetValueCount, List.foldl_append]

theorem TransactionManager.get_snoc (outer : List TransactionLayer)
    (cur : TransactionLayer) (key : String) :
    TransactionManager.Get { layers := outer ++ [cur] } key
      = match cur.changes.get key with
        | some change =>
          if change.Operation = Operation.OpUnset then ("NULL", true) else (change.NewValue, true)
        | none => TransactionManager.Get { layers := outer } key := by
  simp [TransactionManager.Get, TransactionManager.getLoop]

/-! ## Lemmas on the facade inside a transaction -/

theorem TransactionManager.set_snoc (outer : List TransactionLayer) (cur : TransactionLayer)
    (key value oldValue : String) :
    TransactionManager.Set { layers := outer ++ [cur] } key value oldValue
      = { layers := outer ++ [cur.recordSet key value oldValue] } := by
  unfold TransactionManager.Set
  rw [TransactionManager.inTransaction_snoc, TransactionManager.getCurrentLayer_snoc]
  simp only [Bool.not_eq_true, if_false, reduceCtorEq]
  rw [TransactionManager.setCurrentLayer_snoc]
  rfl

theorem TransactionManager.unset_snoc (outer : List TransactionLayer) (cur : TransactionLayer)
    (key currentValue : String) :
    TransactionManager.Unset { layers := outer ++ [cur] } key currentValue
      = { layers := outer ++ [cur.recordUnset key currentValue] } := by
  unfold TransactionManager.Unset
  rw [TransactionManager.inTransaction_snoc, TransactionManager.getCurrentLayer_snoc]
  simp only [Bool.not_eq_true, if_false, reduceCtorEq]
  rw [TransactionManager.setCurrentLayer_snoc]
  rfl

theorem Database.facade_set_snoc (st : Storage) (outer : List TransactionLayer) (cur : TransactionLayer)
    (key value : String) :
    Database.Set { storage := st, transactions := { layers := outer ++ [cur] } } key value
      = { storage := st
          transactions := { layers := outer ++ [cur.recordSet key value (st.Get key)] } } := by
  unfold Database.Set
  simp only [TransactionManager.inTransaction_snoc, if_true, TransactionManager.set_snoc]

theorem Database.facade_unset_snoc (st : Storage) (outer : List TransactionLayer)
    (cur : TransactionLayer) (key : String) :
    Database.Unset { storage := st, transactions := { layers := outer ++ [cur] } } key
      = if Database.Get { storage := st, transactions := { layers := outer ++ [cur] } } key
            = "NULL" then
          { storage := st, transactions := { layers := outer ++ [cur] } }
        else
          { storage := st
            transactions := { layers := outer ++ [cur.recordUnset key
              (Database.Get { storage := st, transactions := { layers := outer ++ [cur] } }
                key)] } } := by
  unfold Database.Unset
  simp only [TransactionManager.inTransaction_snoc, if_true, TransactionManager.unset_snoc]

/-- A database with an active transaction, split at its innermost layer. -/
theorem Database.split_active (db : Database) (h : db.transactions.InTransaction = true) :
    ∃ st outer cur, db = { storage := st, transactions := { layers := outer ++ [cur] } } := by
  obtain ⟨outer, cur, hl⟩ := db.transactions.layers_split h
  refine ⟨db.storage, outer, cur, ?_⟩
  cases db with
  | mk st tm =>
    cases tm with
    | mk layers =>
      simp only at hl
      subst hl
      rfl

/-- Writes inside a transaction touch the innermost layer only. -/
theorem runCalls_writes_snoc (st : Storage) (outer : List TransactionLayer)
    (ops : List Write) (cur : TransactionLayer) :
    ∃ cur2, runCalls { storage := st, transactions := { layers := outer ++ [cur] } }
        (ops.map Write.toCall)
      = { storage := st, transactions := { layers := outer ++ [cur2] } } := by
  induction ops generalizing cur with
  | nil => exact ⟨cur, rfl⟩
  | cons op rest ih =>
    cases op with
    | set key value =>
      simp only [List.map_cons, runCalls, List.foldl_cons, Write.toCall, Call.run,
        Database.facade_set_snoc]
      exact ih _
    | unset key =>
      simp only [List.map_cons, runCalls, List.foldl_cons, Write.toCall, Call.run,
        Database.facade_unset_snoc]
      split
      · exact ih _
      · exact ih _

/-! ## The count invariant of the base store -/

theorem card_filter_split (S : Finset String) (k : String) (hk : k ∈ S)
    (P : String → Prop) [DecidablePred P] :
    (S.filter P).card = ((S.erase k).filter P).card + (if P k then 1 else 0) := by
  conv_lhs => rw [← Finset.insert_erase hk]
  rw [Finset.filter_insert]
  by_cases hP : P k
  · simp only [hP, if_true]
    rw [Finset.card_insert_of_not_mem]
    simp
  · simp [hP]

theorem Storage.counted_new (S : Finset String) : Storage.Counted S Storage.New := by
  constructor
  · intro k hk
    exact absurd rfl hk
  · intro v _
    simp [Storage.New, GoMap.at]

/-- The storage branch of `Database.Set` keeps the count invariant. -/
theorem Storage.counted_set (S : Finset String) (st : Storage) (k v2 : String)
    (hk : k ∈ S) (h : Storage.Counted S st) :
    Storage.Counted S ((st.Set k v2).UpdateValueCount (st.Get k) v2) := by
  obtain ⟨hsupp, hcnt⟩ := h
  constructor
  · intro x hx
    by_cases hxk : x = k
    · subst hxk
      exact hk
    · apply hsupp
      simpa [hxk] using hx
  · intro v hv
    have hE : (S.erase k).filter (fun x => (st.data.put k v2) x = some v)
        = (S.erase k).filter (fun x => st.data x = some v) := by
      apply Finset.filter_congr
      intro x hx
      have hxk : x ≠ k := (Finset.mem_erase.1 hx).1
      simp [hxk]
    rw [Storage.at_update, Storage.data_update, Storage.data_set, Storage.valueCounts_set,
      card_filter_split S k hk, hE, hcnt v hv, card_filter_split S k hk (fun x => st.data x = some v)]
    simp only [GoMap.put_same, Option.some.injEq]
    cases hd : st.data k with
    | none =>
      simp only [Storage.get_of_data_none st hd, ne_eq, not_true_eq_false, false_and, if_false,
        reduceCtorEq]
      by_cases hv2 : v = v2
      · subst hv2
        simp
      · have hv2b : ¬ v2 = v := fun e => hv2 e.symm
        simp [hv2, hv2b]
    | some o =>
      simp only [Storage.get_of_data_some st hd, Option.some.injEq]
      by_cases hov : o = v
      · subst hov
        simp only [ne_eq, hv, not_false_eq_true, and_self, if_true]
        by_cases hv2 : o = v2
        · subst hv2
          simp only [if_true]
          push_cast
          omega
        · have hv2b : ¬ v2 = o := fun e => hv2 e.symm
          simp only [hv2, hv2b, if_false]
          push_cast
          omega
      · have hvo : ¬ v = o := fun e => hov e.symm
        simp only [hvo, and_false, if_false, hov]
        by_cases hv2 : v = v2
        · subst hv2
          simp
        · have hv2b : ¬ v2 = v := fun e => hv2 e.symm
          simp [hv2, hv2b]

/-- The storage branch of `Database.Unset` keeps the count invariant. -/
theorem Storage.counted_unset (S : Finset String) (st : Storage) (k : String)
    (hget : st.Get k ≠ "NULL") (h : Storage.Counted S st) :
    Storage.Counted S ((st.Unset k).DecrementValueCount (st.Get k)) := by
  obtain ⟨hsupp, hcnt⟩ := h
  cases hd : st.data k with
  | none => exact absurd (Storage.get_of_data_none st hd) hget
  | some o =>
    have hgo : st.Get k = o := Storage.get_of_data_some st hd
    rw [hgo] at hget ⊢
    have hk : k ∈ S := hsupp k (by simp [hd])
    constructor
    · intro x hx
      by_cases hxk : x = k
      · subst hxk
        exact hk
      · apply hsupp
        simpa [hxk] using hx
    · intro v hv
      have hE : (S.erase k).filter (fun x => (st.data.del k) x = some v)
          = (S.erase k).filter (fun x => st.data x = some v) := by
        apply Finset.filter_congr
        intro x hx
        have hxk : x ≠ k := (Finset.mem_erase.1 hx).1
        simp [hxk]
      rw [Storage.at_decrement, Storage.data_decrement, Storage.data_unset,
        Storage.valueCounts_unset, card_filter_split S k hk, hE]
      simp only [GoMap.del_same, reduceCtorEq, if_false, add_zero]
      by_cases hvo : v = o
      · subst hvo
        rw [if_pos rfl, hcnt v hv, card_filter_split S k hk (fun x => st.data x = some v)]
        simp only [hd, if_true]
        push_cast
        omega
      · rw [if_neg hvo, hcnt v hv, card_filter_split S k hk (fun x => st.data x = some v)]
        have hov : ¬ o = v := fun e => hvo e.symm
        simp [hd, hov]

theorem Database.countedBase_write (S : Finset String) (db : Database) (w : Write)
    (hk : ∀ k ∈ setKeys [w.toCall], k ∈ S) (h : Database.CountedBase S db) :
    Database.CountedBase S (w.toCall.run db) := by
  obtain ⟨hl, hc⟩ := h
  have hT : db.transactions.InTransaction = false := (db.transactions.not_inTransaction_iff).2 hl
  cases w with
  | set key value =>
    have hkey : key ∈ S := hk key (by simp [Write.toCall, setKeys])
    simp only [Write.toCall, Call.run, Database.Set, hT, Bool.false_eq_true, if_false]
    exact ⟨hl, Storage.counted_set S db.storage key value hkey hc⟩
  | unset key =>
    simp only [Write.toCall, Call.run, Database.Unset, Database.Get, hT, Bool.false_eq_true,
      if_false]
    by_cases hg : db.storage.Get key = "NULL"
    · simp only [hg, if_true]
      exact ⟨hl, hc⟩
    · simp only [hg, if_false]
      exact ⟨hl, Storage.counted_unset S db.storage key hg hc⟩

theorem setKeys_cons_write (w : Write) (rest : List Call) :
    setKeys (w.toCall :: rest) = setKeys [w.toCall] ++ setKeys rest := by
  cases w <;> simp [Write.toCall, setKeys]

theorem Database.countedBase_writes (S : Finset String) (ws : List Write) (db : Database)
    (hk : ∀ k ∈ setKeys (ws.map Write.toCall), k ∈ S) (h : Database.CountedBase S db) :
    Database.CountedBase S (runCalls db (ws.map Write.toCall)) := by
  induction ws generalizing db with
  | nil => exact h
  | cons w rest ih =>
    rw [List.map_cons, setKeys_cons_write] at hk
    simp only [List.mem_append] at hk
    simp only [List.map_cons, runCalls, List.foldl_cons]
    exact ih (w.toCall.run db) (fun k hk2 => hk k (Or.inr hk2))
      (Database.countedBase_write S db w (fun k hk2 => hk k (Or.inl hk2)) h)

theorem keysHolding_eq_card (db : Database) (keys : List String) (v : String) :
    keysHolding db keys v = (keys.toFinset.filter (fun k => db.Get k = v)).card := by
  unfold keysHolding
  rw [← List.toFinset_card_of_nodup ((List.nodup_dedup keys).filter _)]
  congr 1
  ext x
  simp

theorem Database.get_eq_iff_data (db : Database) (hl : db.transactions.layers = [])
    (k v : String) (hv : v ≠ "NULL") : db.Get k = v ↔ db.storage.data k = some v := by
  have hT : db.transactions.InTransaction = false := (db.transactions.not_inTransaction_iff).2 hl
  simp only [Database.Get, hT, Bool.false_eq_true, if_false, Storage.Get]
  cases hd : db.storage.data k with
  | none =>
    simp only [reduceCtorEq, iff_false]
    exact fun e => hv e.symm
  | some o => simp

theorem Database.numEqualTo_base (db : Database) (hl : db.transactions.layers = [])
    (v : String) : db.NumEqualTo v = db.storage.valueCounts.at v := by
  simp [Database.NumEqualTo, TransactionManager.GetValueCount, hl, Storage.GetValueCount]

/-! ## Well-formed layers -/

theorem AssocMap.wf_nil : AssocMap.WF [] := by
  constructor
  · simp
  · intro e he
    cases he

theorem AssocMap.wf_put (m : AssocMap TransactionChange) (k : String) (c : TransactionChange)
    (hc : c.Key = k) (h : AssocMap.WF m) : AssocMap.WF (m.put k c) := by
  obtain ⟨hn, hk⟩ := h
  constructor
  · simp only [AssocMap.put, List.map_cons, List.nodup_cons]
    constructor
    · intro hmem
      obtain ⟨e, he, hek⟩ := List.mem_map.1 hmem
      have := (List.mem_filter.1 he).2
      simp only [ne_eq, decide_not, Bool.not_eq_eq_eq_not, Bool.not_true,
        decide_eq_false_iff_not] at this
      exact this hek
    · exact (List.Nodup.sublist (List.Sublist.map _ (List.filter_sublist _)) hn)
  · intro e he
    simp only [AssocMap.put, List.mem_cons] at he
    rcases he with rfl | he
    · exact hc
    · exact hk e (List.mem_filter.1 he).1

theorem AssocMap.get_eq_none_of_not_mem {V : Type} (m : AssocMap V) (k : String)
    (h : k ∉ m.map Prod.fst) : AssocMap.get m k = none := by
  induction m with
  | nil => rfl
  | cons e rest ih =>
    obtain ⟨a, b⟩ := e
    simp only [List.map_cons, List.mem_cons, not_or] at h
    have hak : ¬ a = k := fun e => h.1 e.symm
    rw [AssocMap.get_cons, if_neg hak]
    exact ih h.2

theorem AssocMap.mem_of_get {V : Type} (m : AssocMap V) (k : String) (v : V)
    (h : AssocMap.get m k = some v) : (k, v) ∈ m := by
  induction m with
  | nil => cases h
  | cons e rest ih =>
    obtain ⟨a, b⟩ := e
    rw [AssocMap.get_cons] at h
    by_cases hak : a = k
    · rw [if_pos hak] at h
      cases h
      subst hak
      exact List.mem_cons_self _ _
    · rw [if_neg hak] at h
      exact List.mem_cons_of_mem _ (ih h)

theorem AssocMap.not_mem_of_get_none {V : Type} (m : AssocMap V) (k : String)
    (h : AssocMap.get m k = none) : k ∉ m.map Prod.fst := by
  induction m with
  | nil => simp
  | cons e rest ih =>
    obtain ⟨a, b⟩ := e
    rw [AssocMap.get_cons] at h
    by_cases hak : a = k
    · rw [if_pos hak] at h
      cases h
    · rw [if_neg hak] at h
      simp only [List.map_cons, List.mem_cons, not_or]
      exact ⟨fun e => hak e.symm, ih h⟩

theorem TransactionLayer.wf_recordSet (layer : TransactionLayer) (key value oldValue : String)
    (h : AssocMap.WF layer.changes) :
    AssocMap.WF (layer.recordSet key value oldValue).changes :=
  AssocMap.wf_put _ _ _ rfl h

theorem TransactionLayer.wf_recordUnset (layer : TransactionLayer) (key currentValue : String)
    (h : AssocMap.WF layer.changes) :
    AssocMap.WF (layer.recordUnset key currentValue).changes :=
  AssocMap.wf_put _ _ _ rfl h

theorem TransactionManager.wf_snoc (outer : List TransactionLayer) (cur cur2 : TransactionLayer)
    (h : TransactionManager.WF { layers := outer ++ [cur] }) (h2 : AssocMap.WF cur2.changes) :
    TransactionManager.WF { layers := outer ++ [cur2] } := by
  intro layer hl
  simp only [List.mem_append, List.mem_singleton] at hl
  rcases hl with hl | rfl
  · exact h layer (by simp [hl])
  · exact h2

/-- Every call keeps the layers well formed. -/
theorem Call.run_wf (db : Database) (c : Call) (h : db.transactions.WF) :
    (c.run db).transactions.WF := by
  cases c with
  | set key value =>
    simp only [Call.run]
    cases hT : db.transactions.InTransaction with
    | false =>
      simpa [Database.Set, hT] using h
    | true =>
      obtain ⟨st, outer, cur, rfl⟩ := db.split_active hT
      rw [Database.facade_set_snoc]
      exact TransactionManager.wf_snoc outer cur _ h
        (TransactionLayer.wf_recordSet cur _ _ _ (h cur (by simp)))
  | unset key =>
    simp only [Call.run]
    cases hT : db.transactions.InTransaction with
    | false =>
      unfold Database.Unset
      simp only [hT, Bool.false_eq_true, if_false]
      split
      · exact h
      · exact h
    | true =>
      obtain ⟨st, outer, cur, rfl⟩ := db.split_active hT
      rw [Database.facade_unset_snoc]
      split
      · exact h
      · exact TransactionManager.wf_snoc outer cur _ h
          (TransactionLayer.wf_recordUnset cur _ _ (h cur (by simp)))
  | begin =>
    intro layer hl
    simp only [Call.run, Database.Begin, TransactionManager.Begin, List.mem_append,
      List.mem_singleton] at hl
    rcases hl with hl | rfl
    · exact h layer hl
    · exact AssocMap.wf_nil
  | rollback =>
    intro layer hl
    simp only [Call.run, Database.Rollback, TransactionManager.Rollback] at hl
    split at hl
    · exact h layer hl
    · exact h layer (List.mem_of_mem_take hl)
  | commit o =>
    intro layer hl
    simp only [Call.run, Database.Commit] at hl
    split at hl
    · exact h layer hl
    · simp [TransactionManager.Clear] at hl

theorem runCalls_wf (calls : List Call) (db : Database) (h : db.transactions.WF) :
    (runCalls db calls).transactions.WF := by
  induction calls generalizing db with
  | nil => exact h
  | cons c rest ih => exact ih (c.run db) (Call.run_wf db c h)

theorem Reachable.wf {db : Database} (h : Reachable db) : db.transactions.WF := by
  obtain ⟨calls, rfl⟩ := h
  apply runCalls_wf
  intro layer hl
  cases hl

/-! ## The merged change map and the fold of `Commit` -/

theorem getLoop_eq_findChange (key : String) (ls : List TransactionLayer) :
    TransactionManager.getLoop key ls
      = match findChange key ls with
        | some change =>
          if change.Operation = Operation.OpUnset then ("NULL", true) else (change.NewValue, true)
        | none => ("", false) := by
  induction ls with
  | nil => rfl
  | cons layer rest ih =>
    simp only [TransactionManager.getLoop, findChange]
    cases layer.changes.get key with
    | none => simpa using ih
    | some c => rfl

theorem findChange_append (key : String) (xs ys : List TransactionLayer) :
    findChange key (xs ++ ys)
      = match findChange key xs with
        | some change => some change
        | none => findChange key ys := by
  induction xs with
  | nil => rfl
  | cons layer rest ih =>
    simp only [List.cons_append, findChange]
    cases layer.changes.get key with
    | none => simpa using ih
    | some c => rfl

/-- Merging the entries of one layer into a map: the layer wins. -/
theorem AssocMap.get_foldl_put (es cm : AssocMap TransactionChange) (k : String)
    (hn : (es.map Prod.fst).Nodup) :
    AssocMap.get (es.foldl (fun cm2 e => cm2.put e.1 e.2) cm) k
      = match AssocMap.get es k with
        | some change => some change
        | none => AssocMap.get cm k := by
  induction es generalizing cm with
  | nil => rfl
  | cons e rest ih =>
    obtain ⟨a, c⟩ := e
    simp only [List.map_cons, List.nodup_cons] at hn
    simp only [List.foldl_cons]
    rw [ih _ hn.2, AssocMap.get_cons]
    by_cases hak : a = k
    · subst hak
      rw [AssocMap.get_eq_none_of_not_mem rest a hn.1]
      simp
    · have hka : k ≠ a := fun e => hak e.symm
      rw [if_neg hak, AssocMap.get_put_other _ _ hka]

theorem AssocMap.wf_foldl_put (es cm : AssocMap TransactionChange)
    (hes : ∀ e ∈ es, e.2.Key = e.1) (h : AssocMap.WF cm) :
    AssocMap.WF (es.foldl (fun cm2 e => cm2.put e.1 e.2) cm) := by
  induction es generalizing cm with
  | nil => exact h
  | cons e rest ih =>
    simp only [List.foldl_cons]
    exact ih _ (fun e2 he2 => hes e2 (List.mem_cons_of_mem _ he2))
      (AssocMap.wf_put cm e.1 e.2 (hes e (List.mem_cons_self _ _)) h)

/-- The loop of `GetAllChanges` over the layers, from any starting map. -/
theorem changeMap_loop (layers : List TransactionLayer) (cm : AssocMap TransactionChange)
    (k : String) (hwf : ∀ layer ∈ layers, AssocMap.WF layer.changes) (hcm : AssocMap.WF cm) :
    AssocMap.WF (layers.foldl
        (fun cm1 layer => layer.changes.foldl (fun cm2 e => cm2.put e.1 e.2) cm1) cm)
    ∧ AssocMap.get (layers.foldl
        (fun cm1 layer => layer.changes.foldl (fun cm2 e => cm2.put e.1 e.2) cm1) cm) k
      = match findChange k layers.reverse with
        | some change => some change
        | none => AssocMap.get cm k := by
  induction layers generalizing cm with
  | nil => exact ⟨hcm, rfl⟩
  | cons layer rest ih =>
    have hl : AssocMap.WF layer.changes := hwf layer (List.mem_cons_self _ _)
    have hrest : ∀ l2 ∈ rest, AssocMap.WF l2.changes :=
      fun l2 h2 => hwf l2 (List.mem_cons_of_mem _ h2)
    have hcm2 := AssocMap.wf_foldl_put layer.changes cm hl.2 hcm
    obtain ⟨h1, h2⟩ := ih _ hrest hcm2
    refine ⟨h1, ?_⟩
    simp only [List.foldl_cons, List.reverse_cons]
    rw [h2, findChange_append, AssocMap.get_foldl_put _ _ _ hl.1]
    cases findChange k rest.reverse with
    | some c => rfl
    | none =>
      simp only [findChange]
      cases layer.changes.get k <;> rfl

theorem TransactionManager.changeMap_spec (tm : TransactionManager) (h : tm.WF) (k : String) :
    AssocMap.WF tm.changeMap
    ∧ AssocMap.get tm.changeMap k = findChange k tm.layers.reverse := by
  obtain ⟨h1, h2⟩ := changeMap_loop tm.layers [] k h AssocMap.wf_nil
  refine ⟨h1, ?_⟩
  unfold TransactionManager.changeMap
  rw [h2]
  cases findChange k tm.layers.reverse <;> rfl

theorem Database.data_applyChange (st : Storage) (c : TransactionChange) (k : String) :
    (Database.applyChange st c).data k = if k = c.Key then c.stored else st.data k := by
  unfold Database.applyChange TransactionChange.stored
  cases c.Operation with
  | OpSet =>
    simp only [Storage.data_update, Storage.data_set, GoMap.put]
  | OpUnset =>
    simp only [Storage.data_decrement, Storage.data_unset, GoMap.del]

/-- Changes on other keys leave the entry of a key alone. -/
theorem Database.data_foldl_other (cs : List TransactionChange) (st : Storage) (k : String)
    (h : ∀ c ∈ cs, c.Key ≠ k) : (cs.foldl Database.applyChange st).data k = st.data k := by
  induction cs generalizing st with
  | nil => rfl
  | cons c rest ih =>
    simp only [List.foldl_cons]
    rw [ih _ (fun c2 h2 => h c2 (List.mem_cons_of_mem _ h2)), Database.data_applyChange]
    have : ¬ k = c.Key := fun e => h c (List.mem_cons_self _ _) e.symm
    rw [if_neg this]

/-- With one change per key, the fold leaves for each change what it stores. -/
theorem Database.data_foldl_mem (cs : List TransactionChange) (st : Storage)
    (c : TransactionChange) (hn : (cs.map (fun c2 => c2.Key)).Nodup) (hc : c ∈ cs) :
    (cs.foldl Database.applyChange st).data c.Key = c.stored := by
  induction cs generalizing st with
  | nil => cases hc
  | cons c0 rest ih =>
    simp only [List.map_cons, List.nodup_cons] at hn
    simp only [List.foldl_cons]
    rcases List.mem_cons.1 hc with rfl | hmem
    · rw [Database.data_foldl_other rest _ c.Key, Database.data_applyChange, if_pos rfl]
      intro c2 h2 he
      exact hn.1 (List.mem_map.2 ⟨c2, h2, he⟩)
    · exact ih _ hn.2 hmem

/-- The base map after the fold of `Commit`, in any visiting order. -/
theorem Database.data_commit_fold (tm : TransactionManager) (h : tm.WF) (o : IterOrder)
    (st : Storage) (k : String) :
    ((tm.GetAllChanges o).foldl Database.applyChange st).data k
      = match findChange k tm.layers.reverse with
        | some change => change.stored
        | none => st.data k := by
  obtain ⟨⟨hnodup, hkey⟩, hget⟩ := tm.changeMap_spec h k
  have hperm := o.perm (tm.changeMap.map (fun e => e.2))
  have hkeys : (tm.changeMap.map (fun e => e.2)).map (fun c2 => c2.Key)
      = tm.changeMap.map Prod.fst := by
    rw [List.map_map]
    apply List.map_congr_left
    intro e he
    exact hkey e he
  have hn : ((tm.GetAllChanges o).map (fun c2 => c2.Key)).Nodup := by
    unfold TransactionManager.GetAllChanges
    rw [(hperm.map _).nodup_iff, hkeys]
    exact hnodup
  cases hf : findChange k tm.layers.reverse with
  | some c =>
    rw [hf] at hget
    have hmem := AssocMap.mem_of_get _ _ _ hget
    have hck : c.Key = k := hkey _ hmem
    have hc : c ∈ tm.GetAllChanges o := by
      unfold TransactionManager.GetAllChanges
      rw [hperm.mem_iff]
      exact List.mem_map.2 ⟨(k, c), hmem, rfl⟩
    have := Database.data_foldl_mem _ st c hn hc
    rw [hck] at this
    exact this
  | none =>
    rw [hf] at hget
    have hnot := AssocMap.not_mem_of_get_none _ _ hget
    apply Database.data_foldl_other
    intro c hc he
    unfold TransactionManager.GetAllChanges at hc
    rw [hperm.mem_iff] at hc
    obtain ⟨e, he1, he2⟩ := List.mem_map.1 hc
    apply hnot
    refine List.mem_map.2 ⟨e, he1, ?_⟩
    rw [← hkey e he1, he2, he]

/-! ## Claims -/

/-- C1 (count invariant), evaluated on the code: after `Begin`, `Set a 1`,
`Set a 2` the call `NumEqualTo 1` returns 1 although no key passed to `Set`
reads as `1` (`Get a` is `2`).  The second `Set` takes its baseline from the
base store, not from the effective value. -/
theorem C1_count_invariant_broken :
    (runCalls Database.New [Call.begin, Call.set "a" "1", Call.set "a" "2"]).NumEqualTo "1" = 1
    ∧ (runCalls Database.New [Call.begin, Call.set "a" "1", Call.set "a" "2"]).Get "a" = "2"
    ∧ keysHolding (runCalls Database.New [Call.begin, Call.set "a" "1", Call.set "a" "2"])
        (setKeys [Call.begin, Call.set "a" "1", Call.set "a" "2"]) "1" = 0 := by
  decide

/-- C2 (Set/Get round trip): in every database state, with or without active
transactions at any depth, `Get k` right after `Set k v` returns `v`. -/
theorem C2_set_get_round_trip (db : Database) (k v : String) :
    (db.Set k v).Get k = v := by
  cases hT : db.transactions.InTransaction with
  | false =>
    have hT2 : (db.Set k v).transactions.InTransaction = false := by
      simp [Database.Set, hT]
    simp only [Database.Get, hT2, Bool.false_eq_true, if_false]
    apply Storage.get_of_data_some
    simp [Database.Set, hT]
  | true =>
    obtain ⟨st, outer, cur, rfl⟩ := db.split_active hT
    rw [Database.facade_set_snoc]
    simp [Database.Get, TransactionManager.inTransaction_snoc, TransactionManager.get_snoc,
      TransactionLayer.recordSet]

/-- C3 (Rollback undoes exactly the innermost layer): from every database
state, `Begin`, then any finite sequence of `Set`/`Unset` calls, then
`Rollback` returns no error and gives back the very state it started from, so
every `Get`, every `NumEqualTo` and the nesting depth are as before. -/
theorem C3_rollback_undoes_innermost (db : Database) (ops : List Write) :
    (runCalls db (Call.begin :: ops.map Write.toCall)).Rollback.2 = none
    ∧ (runCalls db (Call.begin :: ops.map Write.toCall)).Rollback.1 = db
    ∧ (∀ k, (runCalls db (Call.begin :: ops.map Write.toCall)).Rollback.1.Get k = db.Get k)
    ∧ (∀ v, (runCalls db (Call.begin :: ops.map Write.toCall)).Rollback.1.NumEqualTo v
          = db.NumEqualTo v)
    ∧ depth (runCalls db (Call.begin :: ops.map Write.toCall)).Rollback.1 = depth db := by
  have key : (runCalls db (Call.begin :: ops.map Write.toCall)).Rollback = (db, none) := by
    obtain ⟨cur2, h⟩ :=
      runCalls_writes_snoc db.storage db.transactions.layers ops newTransactionLayer
    have hb : runCalls db (Call.begin :: ops.map Write.toCall)
        = runCalls { storage := db.storage
                     transactions := { layers := db.transactions.layers ++ [newTransactionLayer] } }
            (ops.map Write.toCall) := rfl
    rw [hb, h]
    simp [Database.Rollback, TransactionManager.rollback_snoc]
  rw [key]
  exact ⟨rfl, rfl, fun _ => rfl, fun _ => rfl, rfl⟩

/-- C4 (Commit folds all layers without changing any visible key): in every
reachable database state with at least one layer, whatever the order in which
the net changes are visited, `Commit` returns no error, every `Get` returns
what it returned before, no transaction is active afterwards and a following
`Rollback` returns `ErrNoTransaction`. -/
theorem C4_commit_keeps_reads (db : Database) (o : IterOrder) (hr : Reachable db)
    (hT : db.transactions.InTransaction = true) :
    (db.Commit o).2 = none
    ∧ (∀ k, (db.Commit o).1.Get k = db.Get k)
    ∧ (db.Commit o).1.transactions.InTransaction = false
    ∧ (db.Commit o).1.Rollback.2 = some Error.ErrNoTransaction := by
  have hc : db.Commit o
      = ({ storage := (db.transactions.GetAllChanges o).foldl Database.applyChange db.storage
           transactions := { layers := [] } }, none) := by
    simp [Database.Commit, hT, TransactionManager.Clear]
  rw [hc]
  refine ⟨rfl, ?_, rfl, rfl⟩
  intro k
  have hdata := Database.data_commit_fold db.transactions hr.wf o db.storage k
  have hafter : Database.Get
      { storage := (db.transactions.GetAllChanges o).foldl Database.applyChange db.storage
        transactions := { layers := [] } } k
      = Storage.Get ((db.transactions.GetAllChanges o).foldl Database.applyChange db.storage) k :=
    rfl
  simp only [hafter]
  unfold Database.Get
  rw [hT, if_pos rfl]
  unfold TransactionManager.Get
  rw [getLoop_eq_findChange]
  unfold Storage.Get
  rw [hdata]
  cases findChange k db.transactions.layers.reverse with
  | none => simp
  | some c =>
    simp only [TransactionChange.stored]
    cases c.Operation <;> simp

/-- Witness of C4: `Begin`, `Set a A`, `Begin`, `Set a B`, then `Commit`. -/
theorem C4_commit_keeps_reads_witness :
    Reachable (runCalls Database.New
      [Call.begin, Call.set "a" "A", Call.begin, Call.set "a" "B"])
    ∧ (runCalls Database.New
        [Call.begin, Call.set "a" "A", Call.begin, Call.set "a" "B"]).transactions.InTransaction
          = true
    ∧ ((runCalls Database.New
        [Call.begin, Call.set "a" "A", Call.begin, Call.set "a" "B"]).Commit
          IterOrder.asListed).1.Get "a" = "B" :=
  ⟨⟨_, rfl⟩, by decide,
   ((C4_commit_keeps_reads
      (runCalls Database.New [Call.begin, Call.set "a" "A", Call.begin, Call.set "a" "B"])
      IterOrder.asListed ⟨_, rfl⟩ (by decide)).2.1 "a").trans (by decide)⟩

/-- C5 (Rollback and Commit fail exactly on an empty stack): in every database
state `Rollback` returns `ErrNoTransaction` iff there is no layer and nil
otherwise, the same holds for `Commit` whatever the visiting order, and the
message of `ErrNoTransaction` is "NO TRANSACTION". -/
theorem C5_errors_exactly_on_empty_stack (db : Database) (o : IterOrder) :
    (db.Rollback.2 = some Error.ErrNoTransaction ↔ db.transactions.layers = [])
    ∧ (db.transactions.layers ≠ [] → db.Rollback.2 = none)
    ∧ ((db.Commit o).2 = some Error.ErrNoTransaction ↔ db.transactions.layers = [])
    ∧ (db.transactions.layers ≠ [] → (db.Commit o).2 = none)
    ∧ Error.ErrNoTransaction.message = "NO TRANSACTION" := by
  cases h : db.transactions.layers with
  | nil =>
    simp [Database.Rollback, Database.Commit, TransactionManager.Rollback,
      TransactionManager.InTransaction, h, Error.message]
  | cons l rest =>
    simp [Database.Rollback, Database.Commit, TransactionManager.Rollback,
      TransactionManager.InTransaction, h, Error.message]

/-- C6 (a failed Rollback or Commit is atomic): in every database state with
no active transaction, `Rollback` and `Commit` return `ErrNoTransaction` and
the state after the call is the state before it: same base map, same base
counts, still no layer, hence the same `Get` and `NumEqualTo` results. -/
theorem C6_failed_call_is_atomic (db : Database) (o : IterOrder)
    (h : db.transactions.InTransaction = false) :
    db.Rollback = (db, some Error.ErrNoTransaction)
    ∧ db.Commit o = (db, some Error.ErrNoTransaction)
    ∧ db.Rollback.1.transactions.layers = []
    ∧ (db.Commit o).1.transactions.layers = []
    ∧ (∀ k, db.Rollback.1.Get k = db.Get k ∧ (db.Commit o).1.Get k = db.Get k)
    ∧ (∀ v, db.Rollback.1.NumEqualTo v = db.NumEqualTo v
          ∧ (db.Commit o).1.NumEqualTo v = db.NumEqualTo v) := by
  have hl : db.transactions.layers = [] := (db.transactions.not_inTransaction_iff).1 h
  have hr : db.Rollback = (db, some Error.ErrNoTransaction) := by
    simp [Database.Rollback, TransactionManager.Rollback, h]
  have hc : db.Commit o = (db, some Error.ErrNoTransaction) := by
    simp [Database.Commit, h]
  rw [hr, hc]
  exact ⟨rfl, rfl, hl, hl, fun _ => ⟨rfl, rfl⟩, fun _ => ⟨rfl, rfl⟩⟩

/-- Witness of C6 on the fresh store. -/
theorem C6_failed_call_is_atomic_witness :
    Database.New.transactions.InTransaction = false
    ∧ Database.New.Rollback = (Database.New, some Error.ErrNoTransaction)
    ∧ Database.New.Commit IterOrder.asListed = (Database.New, some Error.ErrNoTransaction) :=
  ⟨by decide,
   (C6_failed_call_is_atomic Database.New IterOrder.asListed (by decide)).1,
   (C6_failed_call_is_atomic Database.New IterOrder.asListed (by decide)).2.1⟩

/-- C7 (NumEqualTo is never negative), evaluated on the code: after `Set a 1`,
`Begin`, `Set a 2`, `Set a 3` the call `NumEqualTo 1` returns -1.  Both
transactional `Set` calls subtract the base value `1` of `a`. -/
theorem C7_numEqualTo_negative :
    (runCalls Database.New
      [Call.set "a" "1", Call.begin, Call.set "a" "2", Call.set "a" "3"]).NumEqualTo "1" = -1 := by
  decide

/-- C8 (transactional Set counts against the effective value), evaluated on
the code: after `Begin`, `Set a 1` the effective value of `a` is `1`, yet
`Set a 2` records the base value `NULL` as `OldValue` in the innermost layer
and leaves `NumEqualTo 1` at 1 instead of lowering it to 0. -/
theorem C8_set_baseline_is_base_value :
    (runCalls Database.New [Call.begin, Call.set "a" "1"]).Get "a" = "1"
    ∧ (((runCalls Database.New [Call.begin, Call.set "a" "1"]).Set "a" "2").transactions.getCurrentLayer.bind
          (fun layer => layer.changes.get "a")).map (fun c => c.OldValue) = some "NULL"
    ∧ (runCalls Database.New [Call.begin, Call.set "a" "1"]).NumEqualTo "1" = 1
    ∧ ((runCalls Database.New [Call.begin, Call.set "a" "1"]).Set "a" "2").NumEqualTo "1" = 1
    ∧ ((runCalls Database.New [Call.begin, Call.set "a" "1"]).Set "a" "2").NumEqualTo "2" = 1 := by
  decide

/-- C9 (value counting without transactions): in every state reached from
`New()` by `Set` and `Unset` calls only, for every value `v` other than
"NULL", `NumEqualTo v` is the number of distinct keys passed to `Set` whose
`Get` is `v`, and every key whose `Get` is `v` was passed to `Set`;
overwriting a key that holds `v` with another value moves one unit of count
from `v` to the new value; and `NumEqualTo v` is 0 when no key holds `v`. -/
theorem C9_count_without_transactions (ws : List Write) (v : String) (hv : v ≠ "NULL") :
    ((runCalls Database.New (ws.map Write.toCall)).NumEqualTo v : Int)
        = keysHolding (runCalls Database.New (ws.map Write.toCall))
            (setKeys (ws.map Write.toCall)) v
    ∧ (∀ k, (runCalls Database.New (ws.map Write.toCall)).Get k = v →
        k ∈ setKeys (ws.map Write.toCall))
    ∧ (∀ k new, (runCalls Database.New (ws.map Write.toCall)).Get k = v → new ≠ v →
        ((runCalls Database.New (ws.map Write.toCall)).Set k new).NumEqualTo v
            = (runCalls Database.New (ws.map Write.toCall)).NumEqualTo v - 1
        ∧ ((runCalls Database.New (ws.map Write.toCall)).Set k new).NumEqualTo new
            = (runCalls Database.New (ws.map Write.toCall)).NumEqualTo new + 1)
    ∧ ((∀ k, (runCalls Database.New (ws.map Write.toCall)).Get k ≠ v) →
        (runCalls Database.New (ws.map Write.toCall)).NumEqualTo v = 0) := by
  have hinv := Database.countedBase_writes (setKeys (ws.map Write.toCall)).toFinset ws
    Database.New (fun k hk => List.mem_toFinset.2 hk) ⟨rfl, Storage.counted_new _⟩
  generalize runCalls Database.New (ws.map Write.toCall) = db at hinv ⊢
  generalize (setKeys (ws.map Write.toCall)) = keys at hinv ⊢
  obtain ⟨hl, hsupp, hcnt⟩ := hinv
  have hT : db.transactions.InTransaction = false := (db.transactions.not_inTransaction_iff).2 hl
  have hmain : (db.NumEqualTo v : Int) = keysHolding db keys v := by
    rw [Database.numEqualTo_base db hl, hcnt v hv, keysHolding_eq_card]
    congr 2
    apply Finset.filter_congr
    intro x _
    exact (Database.get_eq_iff_data db hl x v hv).symm
  refine ⟨hmain, ?_, ?_, ?_⟩
  · intro k hget
    have hd : db.storage.data k = some v := (Database.get_eq_iff_data db hl k v hv).1 hget
    exact List.mem_toFinset.1 (hsupp k (by simp [hd]))
  · intro k new hget hnew
    have hd : db.storage.data k = some v := (Database.get_eq_iff_data db hl k v hv).1 hget
    have hsg : db.storage.Get k = v := Storage.get_of_data_some _ hd
    have hkS : k ∈ keys.toFinset := hsupp k (by simp [hd])
    have hpos : (1 : Int) ≤ db.storage.valueCounts.at v := by
      rw [hcnt v hv]
      have : 0 < (keys.toFinset.filter (fun x => db.storage.data x = some v)).card :=
        Finset.card_pos.2 ⟨k, Finset.mem_filter.2 ⟨hkS, hd⟩⟩
      exact_mod_cast this
    have hl2 : (db.Set k new).transactions.layers = [] := by
      simp [Database.Set, hT, hl]
    have hst : (db.Set k new).storage = (db.storage.Set k new).UpdateValueCount v new := by
      simp [Database.Set, hT, hsg]
    have hvn : ¬ v = new := fun e => hnew e.symm
    rw [Database.numEqualTo_base _ hl2, Database.numEqualTo_base _ hl2,
      Database.numEqualTo_base db hl, Database.numEqualTo_base db hl, hst,
      Storage.at_update, Storage.at_update]
    simp only [Storage.valueCounts_set, ne_eq, hv, not_false_eq_true, and_self, if_true, hvn,
      if_false, hnew, and_false, true_and]
    constructor
    · omega
    · trivial
  · intro hno
    have h0 : keysHolding db keys v = 0 := by
      unfold keysHolding
      rw [List.length_eq_zero, List.filter_eq_nil_iff]
      intro x _
      simpa using hno x
    rw [hmain, h0]
    rfl

/-- Witness of C9: `Set a 10`, `Set b 10`, `Set b 30` and the value `10`. -/
theorem C9_count_without_transactions_witness :
    "10" ≠ "NULL"
    ∧ ((runCalls Database.New
          ([Write.set "a" "10", Write.set "b" "10", Write.set "b" "30"].map Write.toCall)).NumEqualTo
            "10" : Int)
        = keysHolding (runCalls Database.New
            ([Write.set "a" "10", Write.set "b" "10", Write.set "b" "30"].map Write.toCall))
            (setKeys ([Write.set "a" "10", Write.set "b" "10", Write.set "b" "30"].map
              Write.toCall)) "10" :=
  ⟨by decide,
   (C9_count_without_transactions
      [Write.set "a" "10", Write.set "b" "10", Write.set "b" "30"] "10" (by decide)).1⟩

/-- C10 (transactional Unset removes exactly one unit of count): in every
database state with an active transaction, for every key `k` whose effective
value `Get k` is not "NULL", `Unset k` lowers `NumEqualTo (Get k)` by exactly
one and leaves `NumEqualTo w` unchanged for every other value `w`. -/
theorem C10_unset_in_transaction (db : Database) (k : String)
    (hT : db.transactions.InTransaction = true) (hv : db.Get k ≠ "NULL") :
    (db.Unset k).NumEqualTo (db.Get k) = db.NumEqualTo (db.Get k) - 1
    ∧ ∀ w, w ≠ db.Get k → (db.Unset k).NumEqualTo w = db.NumEqualTo w := by
  obtain ⟨st, outer, cur, rfl⟩ := db.split_active hT
  rw [Database.facade_unset_snoc, if_neg hv]
  constructor
  · simp only [Database.NumEqualTo, TransactionManager.getValueCount_snoc,
      TransactionLayer.recordUnset, GoMap.at_put_same]
    ring
  · intro w hw
    simp only [Database.NumEqualTo, TransactionManager.getValueCount_snoc,
      TransactionLayer.recordUnset, GoMap.at_put_other _ _ hw]

/-- Witness of C10: `Set a 10`, `Begin`, then `Unset a`. -/
theorem C10_unset_in_transaction_witness :
    (Database.New.Set "a" "10").Begin.transactions.InTransaction = true
    ∧ (Database.New.Set "a" "10").Begin.Get "a" ≠ "NULL"
    ∧ ((Database.New.Set "a" "10").Begin.Unset "a").NumEqualTo
        ((Database.New.Set "a" "10").Begin.Get "a")
      = (Database.New.Set "a" "10").Begin.NumEqualTo ((Database.New.Set "a" "10").Begin.Get "a") - 1
    ∧ ∀ w, w ≠ (Database.New.Set "a" "10").Begin.Get "a" →
        ((Database.New.Set "a" "10").Begin.Unset "a").NumEqualTo w
          = (Database.New.Set "a" "10").Begin.NumEqualTo w :=
  ⟨by decide, by decide,
   C10_unset_in_transaction ((Database.New.Set "a" "10").Begin) "a" (by decide) (by decide)⟩

/-- C11 (unsetting an absent key is a no-op): in every database state,
transaction active or not, for every key `k` with `Get k = "NULL"`, the state
after `Unset k` is the state before it: same base map, same base counts, same
layers with the same changes and local counts, hence the same `Get` and
`NumEqualTo` results. -/
theorem C11_unset_absent_is_noop (db : Database) (k : String) (h : db.Get k = "NULL") :
    db.Unset k = db
    ∧ (db.Unset k).storage.data = db.storage.data
    ∧ (db.Unset k).storage.valueCounts = db.storage.valueCounts
    ∧ (db.Unset k).transactions.layers = db.transactions.layers
    ∧ (∀ k2, (db.Unset k).Get k2 = db.Get k2)
    ∧ (∀ v, (db.Unset k).NumEqualTo v = db.NumEqualTo v) := by
  have hu : db.Unset k = db := by
    unfold Database.Unset
    simp only [h, if_true]
  rw [hu]
  exact ⟨rfl, rfl, rfl, rfl, fun _ => rfl, fun _ => rfl⟩

/-- Witness of C11: `Begin`, then `Unset` of a key that was never set. -/
theorem C11_unset_absent_is_noop_witness :
    Database.New.Begin.Get "a" = "NULL" ∧ Database.New.Begin.Unset "a" = Database.New.Begin :=
  ⟨by decide, (C11_unset_absent_is_noop Database.New.Begin "a" (by decide)).1⟩

/-- C12 (Unset makes the key read as absent): in every database state, with
no transaction or at any nesting depth, `Get k` right after `Unset k` returns
"NULL", also when the key is still present in the base store or in an outer
layer. -/
theorem C12_unset_then_get_null (db : Database) (k : String) :
    (db.Unset k).Get k = "NULL" := by
  by_cases hg : db.Get k = "NULL"
  · have hu : db.Unset k = db := by
      unfold Database.Unset
      simp only [hg, if_true]
    rw [hu, hg]
  · cases hT : db.transactions.InTransaction with
    | false =>
      have hu : db.Unset k
          = { db with storage := (db.storage.Unset k).DecrementValueCount (db.Get k) } := by
        unfold Database.Unset
        simp only [hg, if_false, hT, Bool.false_eq_true]
      rw [hu]
      simp only [Database.Get, hT, Bool.false_eq_true, if_false]
      apply Storage.get_of_data_none
      simp
    | true =>
      obtain ⟨st, outer, cur, rfl⟩ := db.split_active hT
      rw [Database.facade_unset_snoc, if_neg hg]
      simp [Database.Get, TransactionManager.inTransaction_snoc, TransactionManager.get_snoc,
        TransactionLayer.recordUnset]

/-- C13 (only Commit reaches the base store): in every database state with
an active transaction, `Set k v`, `Unset k`, `Begin` and `Rollback` each leave
the base store (committed map and committed counts) exactly as it was. -/
theorem C13_base_store_untouched (db : Database) (k v : String)
    (hT : db.transactions.InTransaction = true) :
    (db.Set k v).storage = db.storage
    ∧ (db.Unset k).storage = db.storage
    ∧ db.Begin.storage = db.storage
    ∧ db.Rollback.1.storage = db.storage := by
  refine ⟨?_, ?_, rfl, rfl⟩
  · unfold Database.Set
    simp only [hT, if_true]
  · unfold Database.Unset
    simp only [hT, if_true]
    split <;> rfl

/-- Witness of C13: `Set a 10`, `Begin`, then each call on key `a`. -/
theorem C13_base_store_untouched_witness :
    (Database.New.Set "a" "10").Begin.transactions.InTransaction = true
    ∧ ((Database.New.Set "a" "10").Begin.Set "a" "20").storage
        = (Database.New.Set "a" "10").Begin.storage
    ∧ ((Database.New.Set "a" "10").Begin.Unset "a").storage
        = (Database.New.Set "a" "10").Begin.storage :=
  ⟨by decide,
   (C13_base_store_untouched ((Database.New.Set "a" "10").Begin) "a" "20" (by decide)).1,
   (C13_base_store_untouched ((Database.New.Set "a" "10").Begin) "a" "20" (by decide)).2.1⟩

/-- C17 (Begin is observationally neutral): in every database state `Begin`
(a total function, it has no error result) raises the nesting depth by exactly
one, so a transaction is active afterwards; it appends a layer with no changes
and no count entries and keeps the layers below; and every `Get` and every
`NumEqualTo` returns what it returned before. -/
theorem C17_begin_is_neutral (db : Database) :
    depth db.Begin = depth db + 1
    ∧ db.Begin.transactions.InTransaction = true
    ∧ db.Begin.transactions.layers = db.transactions.layers ++ [newTransactionLayer]
    ∧ newTransactionLayer.changes = []
    ∧ (∀ v, newTransactionLayer.valueCounts v = none)
    ∧ db.Begin.storage = db.storage
    ∧ (∀ k, db.Begin.Get k = db.Get k)
    ∧ (∀ v, db.Begin.NumEqualTo v = db.NumEqualTo v) := by
  refine ⟨?_, ?_, rfl, rfl, fun _ => rfl, rfl, ?_, ?_⟩
  · simp [depth, Database.Begin, TransactionManager.Begin]
  · simp [Database.Begin, TransactionManager.Begin, TransactionManager.InTransaction]
  · intro k
    have hb : db.Begin
        = { storage := db.storage
            transactions := { layers := db.transactions.layers ++ [newTransactionLayer] } } := rfl
    rw [hb]
    simp only [Database.Get, TransactionManager.inTransaction_snoc, if_true,
      TransactionManager.get_snoc, newTransactionLayer, AssocMap.get_nil]
    cases hT : db.transactions.InTransaction with
    | false =>
      have hl : db.transactions.layers = [] := (db.transactions.not_inTransaction_iff).1 hT
      simp [hl, TransactionManager.Get, TransactionManager.getLoop]
    | true => simp
  · intro v
    have hb : db.Begin
        = { storage := db.storage
            transactions := { layers := db.transactions.layers ++ [newTransactionLayer] } } := rfl
    rw [hb]
    simp [Database.NumEqualTo, TransactionManager.getValueCount_snoc, newTransactionLayer,
      GoMap.at]

/-! ## Positive base counts -/

theorem Storage.at_nonneg (st : Storage) (h : st.PositiveCounts) (v : String) :
    0 ≤ st.valueCounts.at v := by
  unfold GoMap.at
  cases hv : st.valueCounts v with
  | none => simp
  | some n => exact le_of_lt (h v n hv)

theorem Storage.positive_new : Storage.New.PositiveCounts := by
  intro v n h
  cases h

theorem Storage.positive_increment (st : Storage) (value : String) (h : st.PositiveCounts) :
    (st.IncrementValueCount value).PositiveCounts := by
  intro v n hv
  unfold Storage.IncrementValueCount at hv
  by_cases hvv : v = value
  · subst hvv
    simp only [GoMap.put_same, Option.some.injEq] at hv
    have := Storage.at_nonneg st h v
    omega
  · simp only [GoMap.put_other _ _ hvv] at hv
    exact h v n hv

theorem Storage.positive_decrement (st : Storage) (value : String) (h : st.PositiveCounts) :
    (st.DecrementValueCount value).PositiveCounts := by
  intro v n hv
  unfold Storage.DecrementValueCount at hv
  simp only [GoMap.at_put_same] at hv
  by_cases hle : st.valueCounts.at value - 1 ≤ 0
  · simp only [hle, if_true] at hv
    by_cases hvv : v = value
    · subst hvv
      simp at hv
    · simp only [GoMap.del_other _ hvv, GoMap.put_other _ _ hvv] at hv
      exact h v n hv
  · simp only [hle, if_false] at hv
    by_cases hvv : v = value
    · subst hvv
      simp only [GoMap.put_same, Option.some.injEq] at hv
      omega
    · simp only [GoMap.put_other _ _ hvv] at hv
      exact h v n hv

theorem Storage.positive_update (st : Storage) (oldValue newValue : String)
    (h : st.PositiveCounts) : (st.UpdateValueCount oldValue newValue).PositiveCounts := by
  unfold Storage.UpdateValueCount
  simp only
  split
  · exact Storage.positive_increment _ _ (Storage.positive_decrement _ _ h)
  · exact Storage.positive_increment _ _ h

theorem Database.positive_applyChange (st : Storage) (c : TransactionChange)
    (h : st.PositiveCounts) : (Database.applyChange st c).PositiveCounts := by
  unfold Database.applyChange
  cases c.Operation with
  | OpSet => exact Storage.positive_update _ _ _ h
  | OpUnset => exact Storage.positive_decrement _ _ h

theorem Database.positive_foldl (cs : List TransactionChange) (st : Storage)
    (h : st.PositiveCounts) : (cs.foldl Database.applyChange st).PositiveCounts := by
  induction cs generalizing st with
  | nil => exact h
  | cons c rest ih => exact ih _ (Database.positive_applyChange st c h)

/-- Every call keeps the base counts positive. -/
theorem Call.run_positive (db : Database) (c : Call) (h : db.storage.PositiveCounts) :
    (c.run db).storage.PositiveCounts := by
  cases c with
  | set key value =>
    simp only [Call.run, Database.Set]
    split
    · exact h
    · exact Storage.positive_update _ _ _ h
  | unset key =>
    simp only [Call.run, Database.Unset]
    split
    · exact h
    · split
      · exact h
      · exact Storage.positive_decrement _ _ h
  | begin => exact h
  | rollback => exact h
  | commit o =>
    simp only [Call.run, Database.Commit]
    split
    · exact h
    · exact Database.positive_foldl _ _ h

theorem runCalls_positive (calls : List Call) (db : Database) (h : db.storage.PositiveCounts) :
    (runCalls db calls).storage.PositiveCounts := by
  induction calls generalizing db with
  | nil => exact h
  | cons c rest ih => exact ih (c.run db) (Call.run_positive db c h)

/-- C15 (the base store never holds a non-positive count): in every database
state reachable from `New()` by `Set`, `Unset`, `Begin`, `Rollback` and
`Commit` calls, every entry present in the base store's value→count map is
strictly positive, so `Storage.GetValueCount v ≥ 0` for every `v`. -/
theorem C15_base_counts_positive (db : Database) (h : Reachable db) :
    (∀ v n, db.storage.valueCounts v = some n → 0 < n)
    ∧ ∀ v, 0 ≤ db.storage.GetValueCount v := by
  obtain ⟨calls, rfl⟩ := h
  have hp := runCalls_positive calls Database.New Storage.positive_new
  exact ⟨hp, fun v => Storage.at_nonneg _ hp v⟩

/-- Witness of C15: the state after `Set a 1`, `Begin`, `Unset a`, `Commit`. -/
theorem C15_base_counts_positive_witness :
    Reachable (runCalls Database.New
      [Call.set "a" "1", Call.begin, Call.unset "a", Call.commit IterOrder.asListed])
    ∧ ∀ v, 0 ≤ (runCalls Database.New
        [Call.set "a" "1", Call.begin, Call.unset "a",
          Call.commit IterOrder.asListed]).storage.GetValueCount v :=
  ⟨⟨_, rfl⟩,
   (C15_base_counts_positive
      (runCalls Database.New
        [Call.set "a" "1", Call.begin, Call.unset "a", Call.commit IterOrder.asListed])
      ⟨_, rfl⟩).2⟩

/-- C14 (folding is order-independent), evaluated on the code: after `Begin`,
`Set a 1`, `Unset a`, `Set b 1` the net changes are an Unset of `a` (old value
`1`) and a Set of `b` to `1`, on distinct keys.  Applied to the base store in
one order they leave the count of `1` at 1, in the other order at 0, and
`Commit` accordingly ends with `NumEqualTo 1` equal to 1 or to 0 depending on
the visiting order. -/
theorem C14_fold_depends_on_order :
    Reachable (runCalls Database.New
      [Call.begin, Call.set "a" "1", Call.unset "a", Call.set "b" "1"])
    ∧ (runCalls Database.New
        [Call.begin, Call.set "a" "1", Call.unset "a", Call.set "b" "1"]).transactions.GetAllChanges
          IterOrder.asListed
        = [{ Key := "a", OldValue := "1", NewValue := "NULL", Operation := Operation.OpUnset },
           { Key := "b", OldValue := "NULL", NewValue := "1", Operation := Operation.OpSet }]
    ∧ (Database.applyChange
        (Database.applyChange Storage.New
          { Key := "a", OldValue := "1", NewValue := "NULL", Operation := Operation.OpUnset })
          { Key := "b", OldValue := "NULL", NewValue := "1",
            Operation := Operation.OpSet }).GetValueCount "1" = 1
    ∧ (Database.applyChange
        (Database.applyChange Storage.New
          { Key := "b", OldValue := "NULL", NewValue := "1", Operation := Operation.OpSet })
          { Key := "a", OldValue := "1", NewValue := "NULL",
            Operation := Operation.OpUnset }).GetValueCount "1" = 0
    ∧ ((runCalls Database.New
        [Call.begin, Call.set "a" "1", Call.unset "a", Call.set "b" "1"]).Commit
          IterOrder.asListed).1.NumEqualTo "1" = 1
    ∧ ((runCalls Database.New
        [Call.begin, Call.set "a" "1", Call.unset "a", Call.set "b" "1"]).Commit
          IterOrder.reversed).1.NumEqualTo "1" = 0 := by
  refine ⟨⟨_, rfl⟩, ?_, ?_, ?_, ?_, ?_⟩ <;> decide

/-- With a single net change the visiting order does not matter. -/
theorem Database.commit_single (db : Database) (o : IterOrder) (c : TransactionChange)
    (hT : db.transactions.InTransaction = true)
    (hc : db.transactions.changeMap.map (fun e => e.2) = [c]) :
    (db.Commit o).1
      = { storage := Database.applyChange db.storage c, transactions := { layers := [] } } := by
  have hg : db.transactions.GetAllChanges o = [c] := by
    unfold TransactionManager.GetAllChanges
    rw [hc]
    exact List.perm_singleton.1 (o.perm [c])
  simp [Database.Commit, hT, hg, TransactionManager.Clear]

/-- C19 (Commit preserves the count invariant), evaluated on the code: after
`Set b 1`, `Begin`, `Set a 1`, `Unset a` a transaction is active and the count
invariant holds for every value other than "NULL" (`b` alone reads as `1` and
`NumEqualTo 1` is 1).  The only net change is an Unset of `a` with old value
`1`; `Commit`, in any visiting order, applies it by decrementing the base count
of `1`, so afterwards `NumEqualTo 1` is 0 although `b` still reads as `1`. -/
theorem C19_commit_breaks_count_invariant :
    Reachable (runCalls Database.New
      [Call.set "b" "1", Call.begin, Call.set "a" "1", Call.unset "a"])
    ∧ (runCalls Database.New
        [Call.set "b" "1", Call.begin, Call.set "a" "1",
          Call.unset "a"]).transactions.InTransaction = true
    ∧ CountInvariant
        (runCalls Database.New [Call.set "b" "1", Call.begin, Call.set "a" "1", Call.unset "a"])
        (setKeys [Call.set "b" "1", Call.begin, Call.set "a" "1", Call.unset "a"])
    ∧ ∀ o : IterOrder,
        ((runCalls Database.New
          [Call.set "b" "1", Call.begin, Call.set "a" "1", Call.unset "a"]).Commit o).1.NumEqualTo
            "1" = 0
        ∧ ((runCalls Database.New
          [Call.set "b" "1", Call.begin, Call.set "a" "1", Call.unset "a"]).Commit o).1.Get "b"
            = "1"
        ∧ keysHolding
            ((runCalls Database.New
              [Call.set "b" "1", Call.begin, Call.set "a" "1", Call.unset "a"]).Commit o).1
            (setKeys [Call.set "b" "1", Call.begin, Call.set "a" "1", Call.unset "a"]) "1" = 1 := by
  refine ⟨⟨_, rfl⟩, by decide, ?_, ?_⟩
  · intro v hv
    by_cases h1 : v = "1"
    · subst h1
      decide
    · have h1b : ¬ "1" = v := fun e => h1 e.symm
      have hvb : ¬ "NULL" = v := fun e => hv e.symm
      simp [runCalls, Call.run, Database.Set, Database.Unset, Database.Begin, Database.New,
        Database.Get, Database.NumEqualTo, keysHolding, setKeys,
        TransactionManager.InTransaction, TransactionManager.Begin,
        TransactionManager.NewTransactionManager, Storage.New, Storage.Get, Storage.Set,
        Storage.UpdateValueCount, Storage.IncrementValueCount, Storage.GetValueCount,
        TransactionManager.GetValueCount, TransactionManager.Set, TransactionManager.Unset,
        TransactionManager.getCurrentLayer, TransactionManager.setCurrentLayer,
        TransactionManager.Get, TransactionManager.getLoop, newTransactionLayer, GoMap.put,
        GoMap.at, AssocMap.put, AssocMap.get, h1, h1b, hv, hvb]
  · intro o
    rw [Database.commit_single _ o
      { Key := "a", OldValue := "1", NewValue := "NULL", Operation := Operation.OpUnset }
      (by decide) (by decide)]
    decide

/-! ## The write log of the layers -/

theorem forall₂_snoc_iff {α β : Type} (R : α → β → Prop) (l : List α) (a : α) (m : List β) :
    List.Forall₂ R (l ++ [a]) m
      ↔ ∃ m0 b, m = m0 ++ [b] ∧ List.Forall₂ R l m0 ∧ R a b := by
  constructor
  · intro h
    rw [← List.forall₂_reverse_iff, List.reverse_append, List.reverse_singleton,
      List.singleton_append] at h
    obtain ⟨b, u, hab, hlu, hm⟩ := List.forall₂_cons_left_iff.1 h
    refine ⟨u.reverse, b, ?_, ?_, hab⟩
    · have := congrArg List.reverse hm
      simpa using this
    · rw [← List.forall₂_reverse_iff]
      simpa using hlu
  · rintro ⟨m0, b, rfl, h1, h2⟩
    rw [← List.forall₂_reverse_iff]
    simp only [List.reverse_append, List.reverse_singleton, List.singleton_append]
    exact List.Forall₂.cons h2 (List.forall₂_reverse_iff.2 h1)

theorem logToCurrent_snoc (lo : List (List TransactionChange)) (lg : List TransactionChange)
    (c : TransactionChange) : logToCurrent (lo ++ [lg]) c = lo ++ [lg ++ [c]] := by
  simp [logToCurrent]

theorem TransactionLayer.at_recordSet (layer : TransactionLayer) (key value oldValue w : String) :
    (layer.recordSet key value oldValue).valueCounts.at w
      = layer.valueCounts.at w
        + TransactionChange.contribution
            { Key := key, OldValue := oldValue, NewValue := value, Operation := Operation.OpSet }
            w := by
  unfold TransactionLayer.recordSet TransactionChange.contribution
  by_cases ho : oldValue = "NULL"
  · by_cases hw : w = value
    · subst hw
      simp [ho]
    · have hw2 : ¬ value = w := fun e => hw e.symm
      simp [ho, hw, hw2]
  · by_cases hw : w = value
    · subst hw
      by_cases hwo : w = oldValue
      · subst hwo
        simp [ho]
      · have hwo2 : ¬ oldValue = w := fun e => hwo e.symm
        simp [ho, hwo, hwo2]
    · have hw2 : ¬ value = w := fun e => hw e.symm
      by_cases hwo : w = oldValue
      · subst hwo
        simp [ho, hw, hw2]
        ring
      · have hwo2 : ¬ oldValue = w := fun e => hwo e.symm
        simp [ho, hw, hw2, hwo, hwo2]

theorem TransactionLayer.at_recordUnset (layer : TransactionLayer) (key currentValue w : String)
    (hc : currentValue ≠ "NULL") :
    (layer.recordUnset key currentValue).valueCounts.at w
      = layer.valueCounts.at w
        + TransactionChange.contribution
            { Key := key, OldValue := currentValue, NewValue := "NULL",
              Operation := Operation.OpUnset } w := by
  unfold TransactionLayer.recordUnset TransactionChange.contribution
  by_cases hw : w = currentValue
  · subst hw
    simp [hc]
    ring
  · have hw2 : ¬ currentValue = w := fun e => hw e.symm
    simp [hw, hw2]

theorem TransactionLayer.logged_new : newTransactionLayer.Logged [] := by
  constructor
  · rfl
  · intro v
    simp [newTransactionLayer, GoMap.at]

theorem TransactionLayer.logged_snoc (layer layer2 : TransactionLayer)
    (lg : List TransactionChange) (c : TransactionChange) (h : layer.Logged lg)
    (hch : layer2.changes = layer.changes.put c.Key c)
    (hat : ∀ v, layer2.valueCounts.at v = layer.valueCounts.at v + c.contribution v) :
    layer2.Logged (lg ++ [c]) := by
  obtain ⟨h1, h2⟩ := h
  constructor
  · rw [hch, h1, List.foldl_append]
    rfl
  · intro v
    rw [hat v, h2 v]
    simp

theorem Call.recorded_set_snoc (st : Storage) (outer : List TransactionLayer)
    (cur : TransactionLayer) (key value : String) :
    (Call.set key value).recorded
        { storage := st, transactions := { layers := outer ++ [cur] } }
      = some { Key := key, OldValue := st.Get key, NewValue := value,
               Operation := Operation.OpSet } := by
  simp only [Call.recorded, TransactionManager.inTransaction_snoc, if_true,
    Database.facade_set_snoc, TransactionManager.getCurrentLayer_snoc, Option.some_bind,
    TransactionLayer.recordSet, AssocMap.get_put_same]

theorem Call.recorded_unset_snoc (st : Storage) (outer : List TransactionLayer)
    (cur : TransactionLayer) (key : String)
    (hg : Database.Get { storage := st, transactions := { layers := outer ++ [cur] } } key
      ≠ "NULL") :
    (Call.unset key).recorded
        { storage := st, transactions := { layers := outer ++ [cur] } }
      = some { Key := key
               OldValue := Database.Get
                 { storage := st, transactions := { layers := outer ++ [cur] } } key
               NewValue := "NULL", Operation := Operation.OpUnset } := by
  simp only [Call.recorded, TransactionManager.inTransaction_snoc, hg, ne_eq, not_false_eq_true,
    and_self, if_true, Database.facade_unset_snoc, if_false,
    TransactionManager.getCurrentLayer_snoc, Option.some_bind, TransactionLayer.recordUnset,
    AssocMap.get_put_same]

/-- Every call keeps each layer related to its write log. -/
theorem Call.run_logged (db : Database) (log : List (List TransactionChange)) (c : Call)
    (h : List.Forall₂ TransactionLayer.Logged db.transactions.layers log) :
    List.Forall₂ TransactionLayer.Logged (c.run db).transactions.layers (c.runLog db log) := by
  cases hT : db.transactions.InTransaction with
  | false =>
    have hl : db.transactions.layers = [] := (db.transactions.not_inTransaction_iff).1 hT
    rw [hl] at h
    have hlog : log = [] := by
      cases h
      rfl
    subst hlog
    cases c with
    | set key value =>
      simp [Call.run, Call.runLog, Call.recorded, Database.Set, hT, hl]
    | unset key =>
      have hu : (db.Unset key).transactions = db.transactions := by
        unfold Database.Unset
        simp only [hT, Bool.false_eq_true, if_false]
        split <;> rfl
      simp [Call.run, Call.runLog, Call.recorded, hT, hl, hu]
    | begin =>
      simp only [Call.run, Call.runLog, Database.Begin, TransactionManager.Begin, hl,
        List.nil_append]
      exact List.Forall₂.cons TransactionLayer.logged_new List.Forall₂.nil
    | rollback =>
      simp [Call.run, Call.runLog, Database.Rollback, TransactionManager.Rollback, hT, hl]
    | commit o =>
      simp [Call.run, Call.runLog, Database.Commit, hT, hl]
  | true =>
    obtain ⟨st, outer, cur, rfl⟩ := db.split_active hT
    obtain ⟨lo, lg, rfl, h1, h2⟩ := (forall₂_snoc_iff _ _ _ _).1 h
    cases c with
    | set key value =>
      simp only [Call.run, Call.runLog, Call.recorded_set_snoc, Database.facade_set_snoc,
        logToCurrent_snoc]
      refine (forall₂_snoc_iff _ _ _ _).2 ⟨lo, _, rfl, h1, ?_⟩
      exact TransactionLayer.logged_snoc cur _ lg _ h2 rfl
        (fun v => TransactionLayer.at_recordSet cur key value (st.Get key) v)
    | unset key =>
      by_cases hg : Database.Get
          { storage := st, transactions := { layers := outer ++ [cur] } } key = "NULL"
      · have hrec : (Call.unset key).recorded
            { storage := st, transactions := { layers := outer ++ [cur] } } = none := by
          simp [Call.recorded, hg]
        simp only [Call.run, Call.runLog, hrec, Database.facade_unset_snoc, hg, if_true]
        exact (forall₂_snoc_iff _ _ _ _).2 ⟨lo, lg, rfl, h1, h2⟩
      · simp only [Call.run, Call.runLog, Call.recorded_unset_snoc st outer cur key hg,
          Database.facade_unset_snoc, hg, if_false, logToCurrent_snoc]
        refine (forall₂_snoc_iff _ _ _ _).2 ⟨lo, _, rfl, h1, ?_⟩
        exact TransactionLayer.logged_snoc cur _ lg _ h2 rfl
          (fun v => TransactionLayer.at_recordUnset cur key _ v hg)
    | begin =>
      simp only [Call.run, Call.runLog, Database.Begin, TransactionManager.Begin]
      exact (forall₂_snoc_iff _ _ _ _).2 ⟨lo ++ [lg], [], rfl, h, TransactionLayer.logged_new⟩
    | rollback =>
      simp only [Call.run, Call.runLog, Database.Rollback, TransactionManager.rollback_snoc]
      have : (lo ++ [lg]).take ((lo ++ [lg]).length - 1) = lo := by simp
      rw [this]
      exact h1
    | commit o =>
      simp [Call.run, Call.runLog, Database.Commit, TransactionManager.inTransaction_snoc,
        TransactionManager.Clear]

theorem runLog_logged (calls : List Call) (db : Database) (log : List (List TransactionChange))
    (h : List.Forall₂ TransactionLayer.Logged db.transactions.layers log) :
    List.Forall₂ TransactionLayer.Logged (runCalls db calls).transactions.layers
      (runLog db log calls) := by
  induction calls generalizing db log with
  | nil => exact h
  | cons c rest ih => exact ih (c.run db) (c.runLog db log) (Call.run_logged db log c h)

/-- Replaying a log without repeated keys keeps every entry. -/
theorem foldl_put_of_nodup (lg : List TransactionChange)
    (hn : (lg.map (fun c => c.Key)).Nodup) :
    lg.foldl (fun m c => AssocMap.put m c.Key c) []
      = (lg.map (fun c => (c.Key, c))).reverse := by
  induction lg using List.reverseRecOn with
  | nil => rfl
  | append_singleton init c ih =>
    rw [List.map_append, List.nodup_append] at hn
    obtain ⟨hinit, _, hdisj⟩ := hn
    rw [List.foldl_append, ih hinit]
    simp only [List.foldl_cons, List.foldl_nil, List.map_append, List.map_cons, List.map_nil,
      List.reverse_append, List.reverse_cons, List.reverse_nil, List.nil_append,
      List.singleton_append, AssocMap.put]
    congr 1
    rw [List.filter_eq_self]
    intro e he
    simp only [List.mem_reverse, List.mem_map] at he
    obtain ⟨c2, hc2, rfl⟩ := he
    simp only [ne_eq, decide_not, Bool.not_eq_eq_eq_not, Bool.not_true, decide_eq_false_iff_not]
    intro hk
    exact hdisj (List.mem_map.2 ⟨c2, hc2, rfl⟩) (by simp [hk])

/-- C16 as stated fails: after `Begin`, `Set a 1`, `Unset a` (a reachable
state) the only layer holds the single change `a: Unset, OldValue 1`, whose
contribution to the value `1` is -1, while the layer's local count of `1` is
0 (the +1 of the replaced Set and the -1 of the Unset). -/
theorem C16_layer_invariant_counterexample :
    Reachable (runCalls Database.New [Call.begin, Call.set "a" "1", Call.unset "a"])
    ∧ ¬ LayerInvariant
        (runCalls Database.New [Call.begin, Call.set "a" "1", Call.unset "a"]) := by
  refine ⟨⟨_, rfl⟩, ?_⟩
  intro h
  have h1 := h _ (List.mem_singleton_self _) "1"
  revert h1
  decide

/-- C16 amended (layer invariant over the write log): in every database state
reached from `New()` by a sequence of calls, every active layer corresponds to
its write log (all entries written into the layer's `changes` since `Begin`
pushed it, also those later replaced by a write to the same key): `changes` is
the log replayed with last-write-wins, and for every value `v` the layer's
local count of `v` is the sum over the whole log of (+1 if the change is a Set
with `NewValue = v`) plus (-1 if `OldValue = v` and it is not "NULL").  When
no key was written twice in the layer this is the sum over the layer's
current `changes`. -/
theorem C16_layer_counts_sum_write_log (calls : List Call) :
    List.Forall₂
      (fun layer lg =>
        layer.changes = lg.foldl (fun m c => AssocMap.put m c.Key c) []
        ∧ (∀ v, layer.valueCounts.at v = (lg.map (fun c => c.contribution v)).sum)
        ∧ ((lg.map (fun c => c.Key)).Nodup →
            ∀ v, layer.valueCounts.at v = layer.changesSum v))
      (runCalls Database.New calls).transactions.layers
      (runLog Database.New [] calls) := by
  have h := runLog_logged calls Database.New [] List.Forall₂.nil
  refine List.Forall₂.imp ?_ h
  intro layer lg hl
  obtain ⟨h1, h2⟩ := hl
  refine ⟨h1, h2, ?_⟩
  intro hn v
  rw [h2 v, TransactionLayer.changesSum, h1, foldl_put_of_nodup lg hn, List.map_reverse,
    List.sum_reverse, List.map_map]
  rfl

/-! ## The result of `GetAllChanges` -/

theorem AssocMap.get_of_mem {V : Type} (m : AssocMap V) (k : String) (v : V)
    (hn : (m.map Prod.fst).Nodup) (h : (k, v) ∈ m) : AssocMap.get m k = some v := by
  induction m with
  | nil => cases h
  | cons e rest ih =>
    obtain ⟨a, b⟩ := e
    simp only [List.map_cons, List.nodup_cons] at hn
    rw [AssocMap.get_cons]
    rcases List.mem_cons.1 h with heq | hmem
    · cases heq
      rw [if_pos rfl]
    · have hak : ¬ a = k := by
        intro e
        subst e
        exact hn.1 (List.mem_map.2 ⟨(a, v), hmem, rfl⟩)
      rw [if_neg hak]
      exact ih hn.2 hmem

theorem AssocMap.mem_keys_iff {V : Type} (m : AssocMap V) (k : String) :
    k ∈ m.map Prod.fst ↔ AssocMap.get m k ≠ none := by
  constructor
  · intro h hnone
    exact AssocMap.not_mem_of_get_none m k hnone h
  · intro h
    by_contra hk
    exact h (AssocMap.get_eq_none_of_not_mem m k hk)

theorem findChange_eq_none_iff (key : String) (ls : List TransactionLayer) :
    findChange key ls = none ↔ ∀ layer ∈ ls, layer.changes.get key = none := by
  induction ls with
  | nil => simp [findChange]
  | cons layer rest ih =>
    simp only [findChange, List.mem_cons, forall_eq_or_imp]
    cases hg : layer.changes.get key with
    | none => simpa using ih
    | some c => simp

/-- The change `findChange` returns sits in a layer, and no layer before it
in the scanned list mentions the key. -/
theorem findChange_split (key : String) (ls : List TransactionLayer) (c : TransactionChange)
    (h : findChange key ls = some c) :
    ∃ pre layer post, ls = pre ++ layer :: post ∧ layer.changes.get key = some c
      ∧ ∀ l ∈ pre, l.changes.get key = none := by
  induction ls with
  | nil => cases h
  | cons layer rest ih =>
    simp only [findChange] at h
    cases hg : layer.changes.get key with
    | some c2 =>
      rw [hg] at h
      cases h
      exact ⟨[], layer, rest, rfl, hg, by simp⟩
    | none =>
      rw [hg] at h
      obtain ⟨pre, l2, post, hls, hget, hpre⟩ := ih h
      refine ⟨layer :: pre, l2, post, by simp [hls], hget, ?_⟩
      intro l hl
      rcases List.mem_cons.1 hl with rfl | hl2
      · exact hg
      · exact hpre l hl2

/-- Membership in the result of `GetAllChanges` is membership in `changeMap`. -/
theorem TransactionManager.mem_getAllChanges (tm : TransactionManager) (h : tm.WF)
    (o : IterOrder) (c : TransactionChange) :
    c ∈ tm.GetAllChanges o ↔ AssocMap.get tm.changeMap c.Key = some c := by
  obtain ⟨⟨hnodup, hkey⟩, _⟩ := tm.changeMap_spec h c.Key
  unfold TransactionManager.GetAllChanges
  rw [(o.perm _).mem_iff]
  constructor
  · intro hc
    obtain ⟨e, he1, he2⟩ := List.mem_map.1 hc
    obtain ⟨a, b⟩ := e
    simp only at he2
    subst he2
    have hk : b.Key = a := hkey _ he1
    rw [hk]
    exact AssocMap.get_of_mem _ _ _ hnodup he1
  · intro hc
    exact List.mem_map.2 ⟨(c.Key, c), AssocMap.mem_of_get _ _ _ hc, rfl⟩

theorem TransactionManager.getAllChanges_keys (tm : TransactionManager) (h : tm.WF)
    (o : IterOrder) :
    ((tm.GetAllChanges o).map (fun c => c.Key)).Perm (tm.changeMap.map Prod.fst) := by
  obtain ⟨⟨_, hkey⟩, _⟩ := tm.changeMap_spec h ""
  have hkeys : (tm.changeMap.map (fun e => e.2)).map (fun c2 => c2.Key)
      = tm.changeMap.map Prod.fst := by
    rw [List.map_map]
    apply List.map_congr_left
    intro e he
    exact hkey e he
  unfold TransactionManager.GetAllChanges
  rw [← hkeys]
  exact (o.perm _).map _

theorem TransactionManager.mem_changeMap_keys (tm : TransactionManager) (h : tm.WF)
    (k : String) :
    k ∈ tm.changeMap.map Prod.fst ↔ ∃ layer ∈ tm.layers, layer.changes.get k ≠ none := by
  obtain ⟨_, hget⟩ := tm.changeMap_spec h k
  rw [AssocMap.mem_keys_iff, hget, ne_eq, findChange_eq_none_iff]
  simp only [List.mem_reverse, not_forall, exists_prop]

theorem TransactionManager.mem_touchedKeys (tm : TransactionManager) (k : String) :
    k ∈ tm.touchedKeys ↔ ∃ layer ∈ tm.layers, layer.changes.get k ≠ none := by
  unfold TransactionManager.touchedKeys
  rw [List.mem_dedup, List.mem_flatMap]
  constructor
  · rintro ⟨layer, hl, hk⟩
    exact ⟨layer, hl, (AssocMap.mem_keys_iff _ _).1 hk⟩
  · rintro ⟨layer, hl, hk⟩
    exact ⟨layer, hl, (AssocMap.mem_keys_iff _ _).2 hk⟩

/-- C20 (GetAllChanges merges with innermost-wins): for every transaction
stack whose layers are Go maps as the package builds them (one entry per key,
each entry storing its own key), and every visiting order, the result of
`GetAllChanges` has a change for a key exactly when some layer has an entry
for that key, has no two changes for the same key, so its length is the number
of distinct touched keys; the change for a key is the entry of the innermost
(highest-index) layer that mentions the key; and its effective value ("NULL"
for an Unset, `NewValue` for a Set) is what `TransactionManager.Get` returns
for the key. -/
theorem C20_getAllChanges_innermost_wins (tm : TransactionManager) (o : IterOrder)
    (h : tm.WF) :
    (∀ k, (∃ c ∈ tm.GetAllChanges o, c.Key = k)
        ↔ ∃ layer ∈ tm.layers, layer.changes.get k ≠ none)
    ∧ ((tm.GetAllChanges o).map (fun c => c.Key)).Nodup
    ∧ (tm.GetAllChanges o).length = tm.touchedKeys.length
    ∧ (∀ c ∈ tm.GetAllChanges o,
        ∃ outer layer inner, tm.layers = outer ++ layer :: inner
          ∧ layer.changes.get c.Key = some c
          ∧ ∀ l ∈ inner, l.changes.get c.Key = none)
    ∧ (∀ c ∈ tm.GetAllChanges o, tm.Get c.Key = (c.effective, true)) := by
  have hperm := tm.getAllChanges_keys h o
  have hnodupMap : (tm.changeMap.map Prod.fst).Nodup := (tm.changeMap_spec h "").1.1
  have hnodup : ((tm.GetAllChanges o).map (fun c => c.Key)).Nodup :=
    hperm.nodup_iff.2 hnodupMap
  have hfind : ∀ c ∈ tm.GetAllChanges o, findChange c.Key tm.layers.reverse = some c := by
    intro c hc
    rw [← (tm.changeMap_spec h c.Key).2]
    exact (tm.mem_getAllChanges h o c).1 hc
  refine ⟨?_, hnodup, ?_, ?_, ?_⟩
  · intro k
    rw [← tm.mem_changeMap_keys h k, ← hperm.mem_iff, List.mem_map]
  · have hlen : (tm.GetAllChanges o).length = (tm.changeMap.map Prod.fst).length := by
      rw [← hperm.length_eq, List.length_map]
    rw [hlen]
    apply List.Perm.length_eq
    refine (List.perm_ext_iff_of_nodup hnodupMap (List.nodup_dedup _)).2 ?_
    intro k
    rw [tm.mem_changeMap_keys h k]
    exact (tm.mem_touchedKeys k).symm
  · intro c hc
    obtain ⟨pre, layer, post, hls, hget, hpre⟩ := findChange_split _ _ _ (hfind c hc)
    refine ⟨post.reverse, layer, pre.reverse, ?_, hget, ?_⟩
    · have := congrArg List.reverse hls
      simpa using this
    · intro l hl
      exact hpre l (List.mem_reverse.1 hl)
  · intro c hc
    unfold TransactionManager.Get
    rw [getLoop_eq_findChange, hfind c hc]
    unfold TransactionChange.effective
    simp only
    split <;> rfl

/-- Witness of C20: the stack after `Begin`, `Set a A`, `Set b X`, `Begin`,
`Set a B`. -/
theorem C20_getAllChanges_innermost_wins_witness :
    (runCalls Database.New
      [Call.begin, Call.set "a" "A", Call.set "b" "X", Call.begin,
        Call.set "a" "B"]).transactions.WF
    ∧ ((runCalls Database.New
        [Call.begin, Call.set "a" "A", Call.set "b" "X", Call.begin,
          Call.set "a" "B"]).transactions.GetAllChanges IterOrder.asListed).length
        = (runCalls Database.New
            [Call.begin, Call.set "a" "A", Call.set "b" "X", Call.begin,
              Call.set "a" "B"]).transactions.touchedKeys.length :=
  ⟨Reachable.wf ⟨_, rfl⟩,
   (C20_getAllChanges_innermost_wins
      (runCalls Database.New
        [Call.begin, Call.set "a" "A", Call.set "b" "X", Call.begin,
          Call.set "a" "B"]).transactions
      IterOrder.asListed (Reachable.wf ⟨_, rfl⟩)).2.2.1⟩

/-! ## The command parser -/

theorem strings.fieldsLoop_dropWhile (l : List Char) :
    strings.fieldsLoop [] (l.dropWhile unicode.IsSpace) = strings.fieldsLoop [] l := by
  induction l with
  | nil => rfl
  | cons c cs ih =>
    by_cases hc : unicode.IsSpace c = true
    · rw [List.dropWhile_cons_of_pos hc, ih]
      simp [strings.fieldsLoop, hc]
    · rw [List.dropWhile_cons_of_neg hc]

theorem strings.fieldsLoop_snoc_space (l cur : List Char) (c : Char)
    (hc : unicode.IsSpace c = true) :
    strings.fieldsLoop cur (l ++ [c]) = strings.fieldsLoop cur l := by
  induction l generalizing cur with
  | nil =>
    by_cases hcur : cur = []
    · simp [strings.fieldsLoop, hc, hcur]
    · simp [strings.fieldsLoop, hc, hcur]
  | cons d ds ih =>
    simp only [List.cons_append, strings.fieldsLoop, List.append_eq, ih]

theorem strings.fieldsLoop_rdropWhile (l cur : List Char) :
    strings.fieldsLoop cur (l.reverse.dropWhile unicode.IsSpace).reverse
      = strings.fieldsLoop cur l := by
  induction l using List.reverseRecOn with
  | nil => rfl
  | append_singleton init c ih =>
    rw [List.reverse_append, List.reverse_singleton, List.singleton_append]
    by_cases hc : unicode.IsSpace c = true
    · rw [List.dropWhile_cons_of_pos hc, ih, strings.fieldsLoop_snoc_space _ _ _ hc]
    · rw [List.dropWhile_cons_of_neg hc]
      simp

/-- Trimming does not change the fields of a line. -/
theorem strings.fields_trimSpace (s : String) :
    strings.Fields (strings.TrimSpace s) = strings.Fields s := by
  unfold strings.Fields strings.TrimSpace
  simp only
  rw [strings.fieldsLoop_rdropWhile, strings.fieldsLoop_dropWhile]

theorem parseCommand_eq_parseTokens (toUpper : String → String) (input : String) :
    parseCommand toUpper input = parseTokens toUpper (strings.Fields input) := by
  unfold parseCommand
  simp only
  by_cases he : strings.TrimSpace input = ""
  · have hf : strings.Fields input = [] := by
      rw [← strings.fields_trimSpace, he]
      rfl
    rw [if_pos he, hf]
    rfl
  · rw [if_neg he, strings.fields_trimSpace]
    cases strings.Fields input with
    | nil => rfl
    | cons first args => rfl

theorem CommandType.name_injective (T U : CommandType) (n : String)
    (hT : T.name = some n) (hU : U.name = some n) : T = U := by
  cases T <;> cases U <;> simp only [CommandType.name, Option.some.injEq, reduceCtorEq] at hT hU <;>
    first
    | rfl
    | (subst hT; exact absurd hU (by decide))

set_option maxHeartbeats 1000000 in
/-- The two outcomes of the `switch`: a command whose name and arity match the
fields, or `CmdInvalid` when no command matches. -/
theorem parseTokens_cons (toUpper : String → String) (first : String) (rest : List String) :
    (∃ T : CommandType, T.name = some (toUpper first) ∧ T.arity = some rest.length
        ∧ parseTokens toUpper (first :: rest) = { CmdType := T, Args := rest })
    ∨ ((∀ T : CommandType, T.name = some (toUpper first) → T.arity ≠ some rest.length)
        ∧ parseTokens toUpper (first :: rest)
            = { CmdType := CommandType.CmdInvalid, Args := [] }) := by
  simp only [parseTokens]
  split_ifs with h1 h2 h1 h2 h1 h2 h1 h2 h1 h2 h1 h2 h1 h2 h1 h2
  all_goals
    first
    | (left
       try (have h0 := List.length_eq_zero.1 h2; subst h0)
       exact ⟨_, by simp [CommandType.name, h1], by simp [CommandType.arity, h2], rfl⟩)
    | (right
       refine ⟨?_, rfl⟩
       intro T hT
       cases T <;> simp_all [CommandType.name, CommandType.arity] <;>
         (intro e
          first
          | exact h2 e.symm
          | exact h2 (List.length_eq_zero.1 e.symm)))

/-- The parser on the fields of a line: which command it returns, with which
arguments. -/
theorem parseTokens_spec (toUpper : String → String) (tokens : List String) :
    (∀ T, T ≠ CommandType.CmdInvalid →
      ((parseTokens toUpper tokens).CmdType = T
        ↔ ∃ first rest, tokens = first :: rest ∧ T.name = some (toUpper first)
            ∧ T.arity = some rest.length))
    ∧ ((parseTokens toUpper tokens).CmdType ≠ CommandType.CmdInvalid →
        (parseTokens toUpper tokens).Args = tokens.tail
        ∧ (parseTokens toUpper tokens).CmdType.arity
            = some (parseTokens toUpper tokens).Args.length)
    ∧ ((parseTokens toUpper tokens).CmdType = CommandType.CmdInvalid →
        (parseTokens toUpper tokens).Args = []) := by
  cases tokens with
  | nil =>
    refine ⟨?_, ?_, ?_⟩
    · intro T hT
      simp [parseTokens, hT.symm]
    · simp [parseTokens]
    · simp [parseTokens]
  | cons first rest =>
    rcases parseTokens_cons toUpper first rest with ⟨U, hn, ha, hp⟩ | ⟨hno, hp⟩
    · rw [hp]
      refine ⟨?_, ?_, ?_⟩
      · intro T _
        constructor
        · intro h
          simp only at h
          subst h
          exact ⟨first, rest, rfl, hn, ha⟩
        · rintro ⟨f, r, hfr, hn2, _⟩
          cases hfr
          exact CommandType.name_injective U T _ hn hn2
      · intro _
        exact ⟨rfl, ha⟩
      · intro h
        simp only at h
        subst h
        cases hn
    · rw [hp]
      refine ⟨?_, ?_, ?_⟩
      · intro T hT
        constructor
        · intro h
          exact absurd h.symm hT
        · rintro ⟨f, r, hfr, hn2, ha2⟩
          cases hfr
          exact absurd ha2 (hno T hn2)
      · intro h
        exact absurd rfl h
      · intro _
        rfl

/-- C18 (parseCommand accepts exactly well-formed commands): for every input
string and every upper-casing function, with tokens the white-space-delimited
fields of the input, `parseCommand` returns a command of a type `T` other than
`CmdInvalid` iff there is a first token whose upper-casing is the name of `T`
and the number of remaining tokens is the arity of `T` (SET 2; GET, UNSET,
NUMEQUALTO 1; BEGIN, ROLLBACK, COMMIT, END 0); then `Args` is the list of the
remaining tokens, unchanged, and has arity-many elements, so `Args[0]` and
`Args[1]` in `Execute` are in bounds; in every other case the result is
`CmdInvalid` with no `Args`. -/
theorem C18_parseCommand_accepts_exactly (toUpper : String → String) (input : String) :
    (∀ T, T ≠ CommandType.CmdInvalid →
      ((parseCommand toUpper input).CmdType = T
        ↔ ∃ first rest, strings.Fields input = first :: rest ∧ T.name = some (toUpper first)
            ∧ T.arity = some rest.length))
    ∧ ((parseCommand toUpper input).CmdType ≠ CommandType.CmdInvalid →
        (parseCommand toUpper input).Args = (strings.Fields input).tail
        ∧ (parseCommand toUpper input).CmdType.arity
            = some (parseCommand toUpper input).Args.length)
    ∧ ((parseCommand toUpper input).CmdType = CommandType.CmdInvalid →
        (parseCommand toUpper input).Args = []) := by
  rw [parseCommand_eq_parseTokens]
  exact parseTokens_spec toUpper (strings.Fields input)

/-! ## Writes and their key -/

theorem Storage.get_congr (s t : Storage) (key : String) (h : t.data key = s.data key) :
    t.Get key = s.Get key := by
  simp [Storage.Get, h]

/-- C21 (writes are local to their key): in every database state, transaction
active or not, for distinct keys `k` and `k2` and every value `v`, neither
`Set k v` nor `Unset k` changes what `Get k2` returns. -/
theorem C21_writes_local_to_key (db : Database) (k k2 v : String) (h : k2 ≠ k) :
    (db.Set k v).Get k2 = db.Get k2 ∧ (db.Unset k).Get k2 = db.Get k2 := by
  cases hT : db.transactions.InTransaction with
  | false =>
    constructor
    · have hs : db.Set k v
          = { db with storage := (db.storage.Set k v).UpdateValueCount (db.storage.Get k) v } := by
        unfold Database.Set
        simp only [hT, Bool.false_eq_true, if_false]
      rw [hs]
      simp only [Database.Get, hT, Bool.false_eq_true, if_false]
      apply Storage.get_congr
      simp [h]
    · by_cases hg : db.Get k = "NULL"
      · have hu : db.Unset k = db := by
          unfold Database.Unset
          simp only [hg, if_true]
        rw [hu]
      · have hu : db.Unset k
            = { db with storage := (db.storage.Unset k).DecrementValueCount (db.Get k) } := by
          unfold Database.Unset
          simp only [hg, if_false, hT, Bool.false_eq_true]
        rw [hu]
        simp only [Database.Get, hT, Bool.false_eq_true, if_false]
        apply Storage.get_congr
        simp [h]
  | true =>
    obtain ⟨st, outer, cur, rfl⟩ := db.split_active hT
    constructor
    · rw [Database.facade_set_snoc]
      simp only [Database.Get, TransactionManager.inTransaction_snoc, if_true,
        TransactionManager.get_snoc, TransactionLayer.recordSet,
        AssocMap.get_put_other _ _ h]
    · rw [Database.facade_unset_snoc]
      split
      · rfl
      · simp only [Database.Get, TransactionManager.inTransaction_snoc, if_true,
          TransactionManager.get_snoc, TransactionLayer.recordUnset,
          AssocMap.get_put_other _ _ h]

/-- Witness of C21: `Set b 1`, `Begin`, `Set b 2`, then writes of `a`. -/
theorem C21_writes_local_to_key_witness :
    "b" ≠ "a"
    ∧ (((Database.New.Set "b" "1").Begin.Set "b" "2").Set "a" "5").Get "b"
        = ((Database.New.Set "b" "1").Begin.Set "b" "2").Get "b"
    ∧ (((Database.New.Set "b" "1").Begin.Set "b" "2").Unset "a").Get "b"
        = ((Database.New.Set "b" "1").Begin.Set "b" "2").Get "b" :=
  ⟨by decide,
   C21_writes_local_to_key ((Database.New.Set "b" "1").Begin.Set "b" "2") "a" "b" "5"
    (by decide)⟩

/-- C22 as stated fails for the literal value "NULL": on the fresh store
(reachable, no transaction, `Get a` is "NULL") `Set a NULL` raises the count of
"NULL" to 1 and the following `Unset a` returns at once because `Get a` reads
"NULL", so `NumEqualTo NULL` is 1 instead of 0. -/
theorem C22_set_unset_null_counterexample :
    Reachable Database.New
    ∧ Database.New.transactions.InTransaction = false
    ∧ Database.New.Get "a" = "NULL"
    ∧ ((Database.New.Set "a" "NULL").Unset "a").Get "a" = "NULL"
    ∧ ¬ (∀ w, ((Database.New.Set "a" "NULL").Unset "a").NumEqualTo w
          = Database.New.NumEqualTo w) := by
  refine ⟨⟨[], rfl⟩, by decide, by decide, by decide, ?_⟩
  intro h
  have h1 := h "NULL"
  revert h1
  decide

/-- C22 amended (Set followed by Unset of an absent key): in every reachable
database state with no active transaction, for every key `k` with
`Get k = "NULL"` and every value `v`, after `Set k v` followed by `Unset k` the
call `Get k` returns "NULL"; when `v` is not the literal "NULL", `NumEqualTo w`
is what it was before the `Set` for every value `w`; when `v` is the literal
"NULL", `NumEqualTo NULL` is one more than before and `NumEqualTo w` is
unchanged for every other `w`. -/
theorem C22_set_unset_restores_counts (db : Database) (k v : String) (hr : Reachable db)
    (hT : db.transactions.InTransaction = false) (hg : db.Get k = "NULL") :
    ((db.Set k v).Unset k).Get k = "NULL"
    ∧ (v ≠ "NULL" → ∀ w, ((db.Set k v).Unset k).NumEqualTo w = db.NumEqualTo w)
    ∧ (v = "NULL" →
        ((db.Set k v).Unset k).NumEqualTo "NULL" = db.NumEqualTo "NULL" + 1
        ∧ ∀ w, w ≠ "NULL" → ((db.Set k v).Unset k).NumEqualTo w = db.NumEqualTo w) := by
  have hl : db.transactions.layers = [] := (db.transactions.not_inTransaction_iff).1 hT
  have hpos : db.storage.PositiveCounts := by
    obtain ⟨calls, rfl⟩ := hr
    exact runCalls_positive calls Database.New Storage.positive_new
  have hsg : db.storage.Get k = "NULL" := by
    simpa [Database.Get, hT] using hg
  have hs : db.Set k v
      = { storage := (db.storage.Set k v).UpdateValueCount "NULL" v
          transactions := db.transactions } := by
    unfold Database.Set
    simp only [hT, Bool.false_eq_true, if_false, hsg]
  have hgetv : (db.Set k v).Get k = v := by
    rw [hs]
    simp only [Database.Get, hT, Bool.false_eq_true, if_false]
    apply Storage.get_of_data_some
    simp
  have hat1 : ∀ w, ((db.storage.Set k v).UpdateValueCount "NULL" v).valueCounts.at w
      = db.storage.valueCounts.at w + (if w = v then 1 else 0) := by
    intro w
    rw [Storage.at_update]
    simp
  have hne : ∀ (st : Storage) (w : String),
      Database.NumEqualTo { storage := st, transactions := db.transactions } w
        = st.valueCounts.at w :=
    fun st w => Database.numEqualTo_base { storage := st, transactions := db.transactions } hl w
  by_cases hv : v = "NULL"
  · have hu : (db.Set k v).Unset k = db.Set k v := by
      unfold Database.Unset
      rw [hgetv]
      simp only [hv, if_true]
    rw [hu]
    refine ⟨by rw [hgetv, hv], fun hne2 => absurd hv hne2, fun _ => ?_⟩
    rw [hs]
    constructor
    · rw [hne, Database.numEqualTo_base db hl, hat1, hv]
      simp
    · intro w hw
      rw [hne, Database.numEqualTo_base db hl, hat1, hv]
      simp [hw]
  · have hT2 : (db.Set k v).transactions.InTransaction = false := by
      rw [hs]
      exact hT
    have hu : (db.Set k v).Unset k
        = { storage := (((db.storage.Set k v).UpdateValueCount "NULL" v).Unset k).DecrementValueCount v
            transactions := db.transactions } := by
      unfold Database.Unset
      simp only [hgetv, hv, if_false, hT2, Bool.false_eq_true]
      rw [hs]
    rw [hu]
    refine ⟨?_, fun _ w => ?_, fun he => absurd he hv⟩
    · simp only [Database.Get, hT, Bool.false_eq_true, if_false]
      apply Storage.get_of_data_none
      simp
    · rw [hne, Database.numEqualTo_base db hl, Storage.at_decrement,
        Storage.valueCounts_unset, hat1, hat1]
      have hnn := Storage.at_nonneg db.storage hpos v
      by_cases hw : w = v
      · subst hw
        simp only [if_true]
        omega
      · simp [hw]

/-- Witness of C22 amended: after `Set b 1`, the key `a` and the value `5`. -/
theorem C22_set_unset_restores_counts_witness :
    Reachable (runCalls Database.New [Call.set "b" "1"])
    ∧ (runCalls Database.New [Call.set "b" "1"]).transactions.InTransaction = false
    ∧ (runCalls Database.New [Call.set "b" "1"]).Get "a" = "NULL"
    ∧ (((runCalls Database.New [Call.set "b" "1"]).Set "a" "5").Unset "a").Get "a" = "NULL" :=
  ⟨⟨_, rfl⟩, by decide, by decide,
   (C22_set_unset_restores_counts (runCalls Database.New [Call.set "b" "1"]) "a" "5"
      ⟨_, rfl⟩ (by decide) (by decide)).1⟩

end KVDB
